import Mathlib

/-!
# Verification of the 8-puzzle best-first search solver

This file gives a shallow embedding, in Lean 4, of the Python program
`Project1_NuoXu.py`: a sliding-tile (8-puzzle) solver built on a generalized
best-first search (Uniform Cost Search or A* with the misplaced-tile or
Manhattan-distance heuristic), together with theorems settling the claims of
the specification against that embedding.

Modelling conventions:
* A puzzle configuration (`list of lists` in Python) is `Config := List (List Nat)`.
* Python list indexing `state[r][c]` is modelled by `idx` via `List.getD`
  (all accesses performed by the program on well-formed inputs are in bounds,
  where both agree; a Python `IndexError` is outside the modelled domain).
* The module-global dictionary `goal_pos` is modelled as an explicit value of
  type `Nat → Option (Nat × Nat)` threaded to `manhattan_distance_heuristic`;
  within a single run of `general_search` it is written exactly once
  (lines 113–116 of the source), which the embedding renders by computing it
  once in `general_search` and passing it unchanged to every heuristic call.
  A Python `KeyError` (tile absent from the dictionary) is modelled by the
  `none` branch contributing nothing; all theorems about the heuristic carry
  hypotheses putting the input in the domain where the dictionary lookup
  succeeds, so the two semantics agree there.
* `heapq.heappush` / `heapq.heappop` / `heapq.heapify` and their helpers
  `_siftdown` / `_siftup` are embedded instruction by instruction from
  CPython's `heapq.py`, with the `while` loops turned into structurally
  recursive functions on an explicit counter that is always at least the
  number of iterations the Python loop performs (`siftdownAux` iterates at
  most `pos` times since the position strictly decreases; `siftupAux` at most
  `endpos - pos` times since the position strictly increases below `endpos`).
* The unbounded `while frontier:` loop of `general_search` is embedded as a
  fuel-indexed iteration `searchLoop` of the loop body `searchStep`; the
  outcome `SearchOutcome.outOfFuel` marks exhaustion of the counter and
  corresponds to no Python behaviour (the Python loop just keeps running).
* The Python `set` of explored state-tuples is modelled as a `List Config`
  used only through membership and insertion of a non-member
  (`state_to_tuple` is content-preserving, so it is the identity here).
-/

/-! ## Configurations and indexing -/

/-- A puzzle configuration: a grid of tile values, `0` the blank
(Python: a list of lists of ints). -/
abbrev Config : Type := List (List Nat)

/-- `idx s r c` models the Python expression `s[r][c]`. -/
def idx (s : Config) (r c : Nat) : Nat :=
  (s.getD r []).getD c 0

/-- `setc s r c v` models the Python assignment `s[r][c] = v`
(on a fresh copy, as in `expand`). -/
def setc (s : Config) (r c v : Nat) : Config :=
  s.set r ((s.getD r []).set c v)

/-- The simultaneous Python assignment
`s[r1][c1], s[r2][c2] = s[r2][c2], s[r1][c1]` (line 91 of the source):
both right-hand sides are read from the original grid, then written. -/
def swapCells (s : Config) (r1 c1 r2 c2 : Nat) : Config :=
  let v1 := idx s r1 c1
  let v2 := idx s r2 c2
  setc (setc s r1 c1 v2) r2 c2 v1

/-- `find_blank` (source lines 28–33): the first `(r, c)` in row-major order
with `state[r][c] == 0`, scanning `r` and `c` over `range(len(state))`;
`None` when there is no blank. -/
def find_blank (state : Config) : Option (Nat × Nat) :=
  (List.range state.length).findSome? fun r =>
    (List.range state.length).findSome? fun c =>
      if idx state r c = 0 then some (r, c) else none

/-- `state_to_tuple` (source lines 36–37) converts to a hashable form without
changing content; on the Lean side it is the identity. -/
def state_to_tuple (state : Config) : Config := state

/-! ## Heuristic functions -/

/-- `no_heuristic` (source lines 41–42): `h(n) = 0`, giving uniform-cost
search. -/
def no_heuristic (_state _goal_state : Config) : Nat := 0

/-- `misplaced_tile_heuristic` (source lines 45–52): the number of positions
`(r, c)` with `r, c < len(state)` whose tile is neither the blank nor equal to
the goal's tile at that position. -/
def misplaced_tile_heuristic (state goal_state : Config) : Nat :=
  (List.range state.length).foldl (fun acc r =>
    (List.range state.length).foldl (fun acc c =>
      if idx state r c ≠ 0 ∧ idx state r c ≠ idx goal_state r c
      then acc + 1 else acc) acc) 0

/-- The type of the module-global dictionary `goal_pos`: a finite map from
tile value to a grid position. -/
def GoalPos : Type := Nat → Option (Nat × Nat)

/-- `precompute_goal_pos` (source lines 57–62): builds the dictionary mapping
each value of `goal_state` to its position, iterating rows then columns, a
later binding overwriting an earlier one (Python dict assignment). -/
def precompute_goal_pos (goal_state : Config) : GoalPos :=
  (List.range goal_state.length).foldl (fun m r =>
    (List.range goal_state.length).foldl (fun m c =>
      fun v => if v = idx goal_state r c then some (r, c) else m v) m)
    (fun _ => none)

/-- `|a - b|` on naturals. -/
def natDist (a b : Nat) : Nat := (a - b) + (b - a)

/-- `manhattan_distance_heuristic` (source lines 64–74): sums, over all
positions `(r, c)` with `r, c < len(goal_state)`, the Manhattan distance of
each non-blank tile from the position the dictionary `gp` assigns it. -/
def manhattan_distance_heuristic (gp : GoalPos) (state goal_state : Config) : Nat :=
  (List.range goal_state.length).foldl (fun acc r =>
    (List.range goal_state.length).foldl (fun acc c =>
      let tile := idx state r c
      if tile ≠ 0 then
        match gp tile with
        | some (goal_r, goal_c) => acc + (natDist r goal_r + natDist c goal_c)
        | none => acc
      else acc) acc) 0

/-! ## Search nodes -/

/-- `PuzzleNode` (source lines 7–14): a search-tree node. The parent link is
part of the node, so the type is a nested inductive; `f_cost` is the derived
field `g_cost + h_cost` fixed at construction. -/
inductive PuzzleNode : Type where
  | mk (state : Config) (parent : Option PuzzleNode) (action : Option String)
       (g_cost : Nat) (h_cost : Nat)

/-- The `state` field. -/
def PuzzleNode.state : PuzzleNode → Config
  | .mk s _ _ _ _ => s

/-- The `parent` field. -/
def PuzzleNode.parent : PuzzleNode → Option PuzzleNode
  | .mk _ p _ _ _ => p

/-- The `action` field. -/
def PuzzleNode.action : PuzzleNode → Option String
  | .mk _ _ a _ _ => a

/-- The `g_cost` field. -/
def PuzzleNode.g_cost : PuzzleNode → Nat
  | .mk _ _ _ g _ => g

/-- The `h_cost` field. -/
def PuzzleNode.h_cost : PuzzleNode → Nat
  | .mk _ _ _ _ h => h

/-- The `f_cost` field, set to `g_cost + h_cost` in `__init__` (line 14). -/
def PuzzleNode.f_cost (n : PuzzleNode) : Nat := n.g_cost + n.h_cost

instance : Inhabited PuzzleNode := ⟨.mk [] none none 0 0⟩

/-- `PuzzleNode.__lt__` (source lines 18–21): compare by `f_cost`, breaking
ties by `g_cost`. -/
def nodeLT (a b : PuzzleNode) : Bool :=
  if a.f_cost = b.f_cost then a.g_cost < b.g_cost else a.f_cost < b.f_cost

/-! ## The `heapq` priority queue

CPython's `heapq` module, specialized to the operations the program uses:
`heappush`, `heappop`, `heapify`. `lget l i` models `l[i]` (every access the
algorithms perform is in bounds). -/

/-- `l[i]` with a default for the (never exercised) out-of-bounds case. -/
def lget {α : Type _} [Inhabited α] (l : List α) (i : Nat) : α :=
  l.getD i default

/-- The loop of `heapq._siftdown`, followed by the final write
`heap[pos] = newitem`. The counter starts at `pos`; since the position
strictly decreases (to its parent `(pos - 1) / 2`) each iteration, the
counter never reaches `0` with the guard `0 < pos` still true, and the
`0` case equals the guard-false branch. -/
def siftdownAux {α : Type _} [Inhabited α] (lt : α → α → Bool) (newitem : α) :
    Nat → List α → Nat → List α
  | 0, heap, pos => heap.set pos newitem
  | fuel + 1, heap, pos =>
    if 0 < pos then
      if lt newitem (lget heap ((pos - 1) / 2)) then
        siftdownAux lt newitem fuel
          (heap.set pos (lget heap ((pos - 1) / 2))) ((pos - 1) / 2)
      else heap.set pos newitem
    else heap.set pos newitem

/-- `heapq._siftdown(heap, 0, pos)` (the program only ever uses
`startpos = 0`): reads `newitem = heap[pos]` and bubbles it up. -/
def pysiftdown {α : Type _} [Inhabited α] (lt : α → α → Bool)
    (heap : List α) (pos : Nat) : List α :=
  siftdownAux lt (lget heap pos) pos heap pos

/-- The comparison `if rightpos < endpos and not heap[childpos] < heap[rightpos]:
childpos = rightpos` of `heapq._siftup`, selecting which child to promote
(`childpos = 2 * pos + 1`, `rightpos = childpos + 1`). -/
def siftupChild {α : Type _} [Inhabited α] (lt : α → α → Bool) (endpos : Nat)
    (heap : List α) (pos : Nat) : Nat :=
  if 2 * pos + 1 + 1 < endpos ∧
      ¬ lt (lget heap (2 * pos + 1)) (lget heap (2 * pos + 1 + 1))
  then 2 * pos + 1 + 1 else 2 * pos + 1

/-- The loop of `heapq._siftup`, followed by `heap[pos] = newitem` and the
trailing `_siftdown(heap, startpos, pos)` (here `startpos = 0`). The counter
starts at `endpos`; the position strictly increases to a child each
iteration, so the counter never reaches `0` with the guard
`2 * pos + 1 < endpos` still true, and the `0` case equals the guard-false
branch. -/
def siftupAux {α : Type _} [Inhabited α] (lt : α → α → Bool) (endpos : Nat)
    (newitem : α) : Nat → List α → Nat → List α
  | 0, heap, pos => pysiftdown lt (heap.set pos newitem) pos
  | fuel + 1, heap, pos =>
    if 2 * pos + 1 < endpos then
      siftupAux lt endpos newitem fuel
        (heap.set pos (lget heap (siftupChild lt endpos heap pos)))
        (siftupChild lt endpos heap pos)
    else pysiftdown lt (heap.set pos newitem) pos

/-- `heapq._siftup(heap, pos)` as called with `pos = 0` from `heappop`, and
from `heapify`. -/
def pysiftup {α : Type _} [Inhabited α] (lt : α → α → Bool)
    (heap : List α) (pos : Nat) : List α :=
  siftupAux lt heap.length (lget heap pos) heap.length heap pos

/-- `heapq.heappush`: append the item, then sift it toward the root. -/
def heappush {α : Type _} [Inhabited α] (lt : α → α → Bool)
    (heap : List α) (item : α) : List α :=
  pysiftdown lt (heap ++ [item]) heap.length

/-- `heapq.heappop`: remove and return the smallest item. `none` models the
`IndexError` on an empty heap (never reached: the search loop guards on
`while frontier`). -/
def heappop {α : Type _} [Inhabited α] (lt : α → α → Bool)
    (heap : List α) : Option (α × List α) :=
  match heap with
  | [] => none
  | _ :: _ =>
    let lastelt := lget heap (heap.length - 1)
    let rest := heap.dropLast
    if rest.isEmpty then some (lastelt, rest)
    else some (lget rest 0, pysiftup lt (rest.set 0 lastelt) 0)

/-- `heapq.heapify`: sift at each non-leaf index, last first. -/
def heapify {α : Type _} [Inhabited α] (lt : α → α → Bool)
    (heap : List α) : List α :=
  ((List.range (heap.length / 2)).reverse).foldl (pysiftup lt) heap

/-! ## Successor generation -/

/-- The move table of `expand` (source line 82): row change, column change,
action label — in the fixed order Up, Down, Left, Right. -/
def moves : List (Int × Int × String) :=
  [(-1, 0, "Up"), (1, 0, "Down"), (0, -1, "Left"), (0, 1, "Right")]

/-- Whether the blank's destination `(blank_r + dr, blank_c + dc)` lies within
the grid (source line 88: `0 <= new_r < len(state) and 0 <= new_c < len(state)`). -/
def inBoundsMove (state : Config) (blank_r blank_c : Nat) (m : Int × Int × String) : Bool :=
  let new_r : Int := (blank_r : Int) + m.1
  let new_c : Int := (blank_c : Int) + m.2.1
  0 ≤ new_r ∧ new_r < (state.length : Int) ∧ 0 ≤ new_c ∧ new_c < (state.length : Int)

/-- The successor node built for one in-bounds move (source lines 90–103):
a fresh grid with blank and destination swapped, `g_cost` one more than the
parent's, `h_cost` the heuristic of the new state, parent and action recorded. -/
def childNode (node : PuzzleNode) (goal_state : Config)
    (heuristic_func : Config → Config → Nat)
    (blank_r blank_c : Nat) (m : Int × Int × String) : PuzzleNode :=
  let new_r : Nat := ((blank_r : Int) + m.1).toNat
  let new_c : Nat := ((blank_c : Int) + m.2.1).toNat
  let new_state := swapCells node.state blank_r blank_c new_r new_c
  PuzzleNode.mk new_state (some node) (some m.2.2)
    (node.g_cost + 1) (heuristic_func new_state goal_state)

/-- `expand` (source lines 77–106): locate the blank, then for each of the
four moves in order keep the in-bounds ones, building a successor node for
each. A state with no blank makes Python fail on unpacking `None`
(outside the modelled domain); the embedding returns no successors there. -/
def expand (node : PuzzleNode) (goal_state : Config)
    (heuristic_func : Config → Config → Nat) : List PuzzleNode :=
  match find_blank node.state with
  | none => []
  | some (blank_r, blank_c) =>
    moves.foldl (fun successors m =>
      if inBoundsMove node.state blank_r blank_c m then
        successors ++ [childNode node goal_state heuristic_func blank_r blank_c m]
      else successors) []

/-- `goal_test` (source lines 109–110). -/
def goal_test (state goal_state : Config) : Bool := state = goal_state

/-! ## The general search engine -/

/-- The three heuristic selections the program offers (main menu,
source lines 254–262). -/
inductive Heur : Type where
  | zero
  | misplaced
  | manhattan
deriving DecidableEq

/-- The heuristic function `general_search` runs with: lines 113–116 call
`precompute_goal_pos(goal_state)` exactly once, when (and only when) the
selected heuristic is the Manhattan one, and the Manhattan evaluations of the
whole run all read that one mapping. -/
def selectHeuristic (h : Heur) (goal_state : Config) : Config → Config → Nat :=
  match h with
  | .zero => no_heuristic
  | .misplaced => misplaced_tile_heuristic
  | .manhattan => manhattan_distance_heuristic (precompute_goal_pos goal_state)

/-- The mutable state of the `while frontier:` loop of `general_search`. -/
structure LoopState : Type where
  frontier : List PuzzleNode
  explored : List Config
  expanded_count : Nat
  max_queue_size : Nat

/-- What one iteration of the loop does: stop with an answer, or continue. -/
inductive StepResult : Type where
  | solved (node : PuzzleNode) (expanded_count max_queue_size : Nat)
  | failed (expanded_count max_queue_size : Nat)
  | next (st : LoopState)

/-- One iteration of the search loop (source lines 132–163): exit with
failure if the frontier is empty; otherwise update the queue-size maximum,
pop, test for the goal, discard an already-explored configuration, and
otherwise expand, pushing each successor whose configuration is not explored. -/
def searchStep (goal_state : Config) (heuristic_func : Config → Config → Nat)
    (st : LoopState) : StepResult :=
  match heappop nodeLT st.frontier with
  | none => .failed st.expanded_count st.max_queue_size
  | some (current_node, rest) =>
    let max_queue_size := max st.max_queue_size st.frontier.length
    if goal_test current_node.state goal_state then
      .solved current_node st.expanded_count max_queue_size
    else if state_to_tuple current_node.state ∈ st.explored then
      .next ⟨rest, st.explored, st.expanded_count, max_queue_size⟩
    else
      let explored := state_to_tuple current_node.state :: st.explored
      let successors := expand current_node goal_state heuristic_func
      let frontier := successors.foldl (fun f child_node =>
        if state_to_tuple child_node.state ∈ explored then f
        else heappush nodeLT f child_node) rest
      .next ⟨frontier, explored, st.expanded_count + 1, max_queue_size⟩

/-- Outcome of a bounded run of the search loop. -/
inductive SearchOutcome : Type where
  | solved (node : PuzzleNode) (expanded_count max_queue_size : Nat)
  | failed (expanded_count max_queue_size : Nat)
  | outOfFuel

/-- The `while frontier:` loop, iterated at most `fuel` times. -/
def searchLoop (goal_state : Config) (heuristic_func : Config → Config → Nat) :
    Nat → LoopState → SearchOutcome
  | 0, _ => .outOfFuel
  | fuel + 1, st =>
    match searchStep goal_state heuristic_func st with
    | .solved n e m => .solved n e m
    | .failed e m => .failed e m
    | .next st' => searchLoop goal_state heuristic_func fuel st'

/-- The root node (source lines 119–120): `g = 0`, `h` the heuristic of the
initial state. -/
def start_node (initial_state goal_state : Config) (h : Heur) : PuzzleNode :=
  PuzzleNode.mk initial_state none none 0
    (selectHeuristic h goal_state initial_state goal_state)

/-- The loop state `general_search` enters the loop with (source
lines 122–127): the heapified singleton frontier, empty explored set,
`expanded_count = 0`, `max_queue_size = 1`. -/
def init_state (initial_state goal_state : Config) (h : Heur) : LoopState :=
  ⟨heapify nodeLT [start_node initial_state goal_state h], [], 0, 1⟩

/-- `general_search` (source lines 113–166), with the selected heuristic as a
tag (mirroring the `heuristic_func == manhattan_distance_heuristic` test) and
an explicit iteration bound standing for the unbounded Python loop. -/
def general_search (fuel : Nat) (initial_state goal_state : Config)
    (h : Heur) : SearchOutcome :=
  searchLoop goal_state (selectHeuristic h goal_state) fuel
    (init_state initial_state goal_state h)

/-! ## Path reconstruction -/

/-- The collection loop of `reconstruct_path` (source lines 171–175): the
states from the given node back to the root, in goal-to-root order. -/
def pathAux : PuzzleNode → List Config
  | .mk s none _ _ _ => [s]
  | .mk s (some p) _ _ _ => s :: pathAux p

/-- `reconstruct_path` (source lines 169–176): the collected states reversed,
root first. -/
def reconstruct_path (goal_node : PuzzleNode) : List Config :=
  (pathAux goal_node).reverse

/-! ## Specification-side notions

These definitions come from the specification's vocabulary and are used to
state the claims; theorems relate them to the embedded program. -/

/-- The permutation invariant of the data model: an `N×N` grid holding each
value in `{0, …, N²−1}` exactly once. -/
def ValidConfig (n : Nat) (s : Config) : Prop :=
  s.length = n ∧ (∀ row ∈ s, row.length = n) ∧ (s.flatten).Perm (List.range (n * n))

instance (n : Nat) (s : Config) : Decidable (ValidConfig n s) := by
  unfold ValidConfig
  infer_instance

/-- `t` arises from `s` by one move: the blank of `s` swapped with the tile in
a horizontally or vertically adjacent in-bounds cell (executable form). -/
def isAdjacentSwap (s t : Config) : Bool :=
  match find_blank s with
  | none => false
  | some (br, bc) =>
    moves.any fun m =>
      inBoundsMove s br bc m ∧
      t = swapCells s br bc ((br : Int) + m.1).toNat ((bc : Int) + m.2.1).toNat

/-- The consecutive-pair condition of the Path Reconstruction claim:
two configurations differing by exactly one adjacent blank swap. -/
def AdjacentSwap (s t : Config) : Prop := isAdjacentSwap s t = true

/-- A node whose ancestry chain is a genuine move path from the
configuration `initial`: the root ancestor carries `initial`, and each link
of the chain is one adjacent blank swap. -/
def PathFrom (initial : Config) : PuzzleNode → Prop
  | .mk s none _ _ _ => s = initial
  | .mk s (some p) _ _ _ => AdjacentSwap p.state s ∧ PathFrom initial p

/-- The binary-heap invariant `heapq` maintains: no child compares strictly
below its parent. -/
def IsHeap {α : Type _} [Inhabited α] (lt : α → α → Bool) (l : List α) : Prop :=
  ∀ i j : Nat, (j = 2 * i + 1 ∨ j = 2 * i + 2) → j < l.length →
    lt (lget l j) (lget l i) = false

/-- `lt` never holds in both directions (true of `PuzzleNode.__lt__`). -/
def LtAsymm {α : Type _} (lt : α → α → Bool) : Prop :=
  ∀ a b, lt a b = true → lt b a = false

/-- The complement of `lt` is transitive (true of `PuzzleNode.__lt__`). -/
def LtNegTrans {α : Type _} (lt : α → α → Bool) : Prop :=
  ∀ a b c, lt a b = false → lt b c = false → lt a c = false

/-- The loop states the search can pass through, starting from `st`:
reflexive-transitive closure of `searchStep … = .next _`. -/
inductive SearchReaches (goal_state : Config)
    (heuristic_func : Config → Config → Nat) : LoopState → LoopState → Prop where
  | refl (st : LoopState) : SearchReaches goal_state heuristic_func st st
  | tail {st st' st'' : LoopState} :
      SearchReaches goal_state heuristic_func st st' →
      searchStep goal_state heuristic_func st' = .next st'' →
      SearchReaches goal_state heuristic_func st st''

/-- Whether a step result continues the loop. -/
def stepIsNext : StepResult → Bool
  | .next _ => true
  | _ => false

/-- The explored set of a continuing step result. -/
def stepExplored : StepResult → List Config
  | .next st => st.explored
  | _ => []

/-- The expansion counter of a continuing step result. -/
def stepExpanded : StepResult → Nat
  | .next st => st.expanded_count
  | _ => 0

/-- The standard 8-puzzle goal (source lines 222–224). -/
def goal3 : Config := [[1, 2, 3], [4, 5, 6], [7, 8, 0]]

/-- A configuration one move from the goal (spec §8, depth-1 scenario). -/
def d1c : Config := [[1, 2, 3], [4, 5, 0], [7, 8, 6]]

/-- A configuration two moves from the goal. -/
def d2c : Config := [[1, 2, 3], [4, 0, 5], [7, 8, 6]]

/-- A malformed configuration: right shape, but the value 1 occurs twice and
the value 8 not at all. -/
def malformed_config : Config := [[0, 1, 1], [2, 3, 4], [5, 6, 7]]

/-- A grid of the goal's dimensions holding only zeros. -/
def zeros3 : Config := [[0, 0, 0], [0, 0, 0], [0, 0, 0]]

/-- A node with `f_cost = 2` reached by no move (`g = 0`, `h = 2`). -/
def nodeShallow : PuzzleNode := PuzzleNode.mk [[0]] none none 0 2

/-- A node with the same `f_cost = 2` reached by one move (`g = 1`, `h = 1`). -/
def nodeDeep : PuzzleNode := PuzzleNode.mk [[1]] none none 1 1

/-- The node of a solved outcome. -/
def solvedNodeOf : SearchOutcome → PuzzleNode
  | .solved n _ _ => n
  | _ => default

/-- The expansion count of a solved outcome. -/
def solvedExpOf : SearchOutcome → Nat
  | .solved _ e _ => e
  | _ => 0

/-- The maximum queue size of a solved outcome. -/
def solvedMaxOf : SearchOutcome → Nat
  | .solved _ _ m => m
  | _ => 0

/-- Specification-side notion: *the* goal position of a tile value — the
first cell of the goal grid (row-major) holding it, `(0, 0)` as a junk value
when the tile does not occur. On a duplicate-free goal this is the unique
occurrence. -/
def tileGoalPos (goal_state : Config) (v : Nat) : Nat × Nat :=
  match (List.range goal_state.length).findSome? (fun r =>
    (List.range goal_state.length).findSome? (fun c =>
      if idx goal_state r c = v then some (r, c) else none)) with
  | some rc => rc
  | none => (0, 0)

/-- Specification-side formula: the Manhattan-distance sum — for every
non-blank tile of the state grid, the absolute row distance plus the absolute
column distance from its current position to its goal position, summed over
all `n × n` positions. -/
def manhattanSpecSum (n : Nat) (goal_state state : Config) : Nat :=
  ∑ r ∈ Finset.range n, ∑ c ∈ Finset.range n,
    (if idx state r c ≠ 0 then
      natDist r (tileGoalPos goal_state (idx state r c)).1 +
        natDist c (tileGoalPos goal_state (idx state r c)).2
    else 0)

/-- A move sequence: `MovePath s t k` holds when `k` adjacent blank swaps
lead from configuration `s` to configuration `t`. -/
inductive MovePath : Config → Config → Nat → Prop where
  | refl (s : Config) : MovePath s s 0
  | step {s t u : Config} {k : Nat} :
      AdjacentSwap s t → MovePath t u k → MovePath s u (k + 1)

/-- `k` is the true shortest-path distance from `initial_state` to `s`. -/
def dOptRel (initial_state s : Config) (k : Nat) : Prop :=
  MovePath initial_state s k ∧ ∀ j, MovePath initial_state s j → k ≤ j

/-- A node whose ancestry chain is a genuine move path from `initial_state`
whose length is recorded exactly by the `g_cost` bookkeeping. -/
def PathG (initial_state : Config) : PuzzleNode → Prop
  | .mk s none _ g _ => s = initial_state ∧ g = 0
  | .mk s (some p) _ g _ =>
      AdjacentSwap p.state s ∧ g = p.g_cost + 1 ∧ PathG initial_state p

/-- The master invariant of one `general_search` run (initial configuration,
goal, selected heuristic function fixed): the frontier is a heap of honestly
costed path-nodes over valid configurations; the explored set holds distinct
valid non-goal configurations, each settled at its true distance with every
successor either settled or on the frontier at a cost within one of it; and
the initial configuration is settled or on the frontier at cost zero. -/
structure SearchInv (n : Nat) (initial_state goal_state : Config)
    (heuristic_func : Config → Config → Nat) (st : LoopState) : Prop where
  frontier_heap : IsHeap nodeLT st.frontier
  frontier_nodes : ∀ nd ∈ st.frontier, PathG initial_state nd ∧
    nd.h_cost = heuristic_func nd.state goal_state ∧ ValidConfig n nd.state
  explored_nodup : st.explored.Nodup
  explored_valid : ∀ s ∈ st.explored, ValidConfig n s
  goal_not_explored : goal_state ∉ st.explored
  init_covered : initial_state ∈ st.explored ∨
    ∃ nd ∈ st.frontier, nd.state = initial_state ∧ nd.g_cost = 0
  closed : ∀ s ∈ st.explored, ∃ gs, dOptRel initial_state s gs ∧
    ∀ t, AdjacentSwap s t → t ∈ st.explored ∨
      ∃ nd ∈ st.frontier, nd.state = t ∧ nd.g_cost ≤ gs + 1

/-! ## General-purpose lemmas -/

/-- Folding the push-one-element-if pattern of `expand` produces the filtered,
mapped move list in order. -/
theorem foldl_append_if_eq {A B : Type _} (p : A → Bool) (f : A → B) :
    ∀ (l : List A) (acc : List B),
      l.foldl (fun s m => if p m then s ++ [f m] else s) acc
        = acc ++ (l.filter p).map f := by
  intro l
  induction l with
  | nil => intro acc; simp
  | cons x xs ih =>
    intro acc
    by_cases hp : p x = true
    · simp [List.foldl_cons, hp, ih]
    · simp only [Bool.not_eq_true] at hp
      simp [List.foldl_cons, hp, ih]

/-- Folding the skip-if-explored push loop of `general_search` equals pushing
the filtered successor list. -/
theorem foldl_push_if_eq {A B : Type _} (q : A → Prop) [DecidablePred q]
    (push : B → A → B) :
    ∀ (l : List A) (acc : B),
      l.foldl (fun f c => if q c then f else push f c) acc
        = (l.filter (fun c => decide (¬ q c))).foldl push acc := by
  intro l
  induction l with
  | nil => intro acc; simp
  | cons x xs ih =>
    intro acc
    by_cases hq : q x
    · simp [List.foldl_cons, hq, ih]
    · simp [List.foldl_cons, hq, ih]

/-- `heapify` of a one-element list does nothing. -/
theorem heapify_singleton {α : Type _} [Inhabited α] (lt : α → α → Bool)
    (x : α) : heapify lt [x] = [x] := by
  simp [heapify]

/-- `heappop` of a one-element list returns its element. -/
theorem heappop_singleton {α : Type _} [Inhabited α] (lt : α → α → Bool)
    (x : α) : heappop lt [x] = some (x, []) := rfl

/-! ## Claim theorems -/

/-- C8: when the initial configuration already equals the goal configuration,
`general_search` (with any of the three heuristics, and at least one loop
iteration allowed) returns the root node solved, with solution depth
`g_cost = 0` and an expansion count of exactly `0` — the goal check happens
before the expansion counter is touched. -/
theorem goal_initial_solved_zero_expansions (goal_state : Config) (h : Heur)
    (fuel : Nat) :
    general_search (fuel + 1) goal_state goal_state h
        = SearchOutcome.solved (start_node goal_state goal_state h) 0 1 ∧
      (start_node goal_state goal_state h).g_cost = 0 := by
  constructor
  · show searchLoop _ _ _ _ = _
    rw [init_state, heapify_singleton]
    simp [searchLoop, searchStep, heappop_singleton, goal_test, state_to_tuple,
      start_node, PuzzleNode.state]
  · rfl

/-- C10: with the dictionary `gp` fixed, `manhattan_distance_heuristic`
reads its `goal_state` argument only through `len(goal_state)`: two goal
grids of equal length give identical values on every state, so the result is
determined entirely by the installed mapping (in the program, the one written
by the most recent `precompute_goal_pos` call) and the state. -/
theorem manhattan_ignores_goal_contents (gp : GoalPos) (state g1 g2 : Config)
    (hlen : g1.length = g2.length) :
    manhattan_distance_heuristic gp state g1
      = manhattan_distance_heuristic gp state g2 := by
  unfold manhattan_distance_heuristic
  rw [hlen]

/-- Witness for C10 at concrete inputs: with the mapping precomputed from the
standard goal, the heuristic value of `d2c` is the same whether the goal
argument is the real goal grid or an all-zero grid of the same size. -/
theorem manhattan_ignores_goal_contents_witness :
    manhattan_distance_heuristic (precompute_goal_pos goal3) d2c goal3
      = manhattan_distance_heuristic (precompute_goal_pos goal3) d2c zeros3 :=
  manhattan_ignores_goal_contents (precompute_goal_pos goal3) d2c goal3 zeros3
    (by rfl)

/-- C3 (amended): `general_search` performs no validation whatever on its
initial configuration. For any initial configuration that is not the goal —
well-formed or malformed — the very first loop iteration proceeds to expand
it: the loop continues, the configuration enters the explored set, and the
expansion counter becomes 1. There is no fail-fast rejection path. -/
theorem general_search_no_validation (initial_state goal_state : Config)
    (h : Heur) (hng : goal_test initial_state goal_state = false) :
    stepIsNext (searchStep goal_state (selectHeuristic h goal_state)
        (init_state initial_state goal_state h)) = true ∧
      stepExplored (searchStep goal_state (selectHeuristic h goal_state)
        (init_state initial_state goal_state h)) = [initial_state] ∧
      stepExpanded (searchStep goal_state (selectHeuristic h goal_state)
        (init_state initial_state goal_state h)) = 1 := by
  rw [init_state, heapify_singleton]
  simp only [searchStep, heappop_singleton, state_to_tuple, start_node,
    PuzzleNode.state, hng]
  simp [stepIsNext, stepExplored, stepExpanded, start_node, PuzzleNode.state]

/-- Witness for C3's amended statement: the malformed configuration (the
value 1 twice, no 8) is not rejected; the first iteration expands it. -/
theorem general_search_no_validation_witness :
    stepIsNext (searchStep goal3 (selectHeuristic .zero goal3)
        (init_state malformed_config goal3 .zero)) = true ∧
      stepExplored (searchStep goal3 (selectHeuristic .zero goal3)
        (init_state malformed_config goal3 .zero)) = [malformed_config] ∧
      stepExpanded (searchStep goal3 (selectHeuristic .zero goal3)
        (init_state malformed_config goal3 .zero)) = 1 :=
  general_search_no_validation malformed_config goal3 .zero (by decide)

/-- Counterexample to C3 as stated: invoked on `malformed_config` (a
duplicated and a missing value — exactly the malformation the claim is
about), `general_search` does not fail fast with an explicit rejection: its
first iteration proceeds into the search loop, expanding the malformed
configuration like any other (loop continues, explored set `[malformed_config]`,
expansion counter 1). -/
theorem malformed_config_is_searched :
    stepIsNext (searchStep goal3 (selectHeuristic .zero goal3)
        (init_state malformed_config goal3 .zero)) = true ∧
      stepExplored (searchStep goal3 (selectHeuristic .zero goal3)
        (init_state malformed_config goal3 .zero)) = [malformed_config] ∧
      stepExpanded (searchStep goal3 (selectHeuristic .zero goal3)
        (init_state malformed_config goal3 .zero)) = 1 := by
  refine ⟨by decide, by decide, by decide⟩

/-- C5: when the blank of the node's state is at `(br, bc)`, `expand` returns
exactly the successors of the in-bounds moves, in the fixed order
Up, Down, Left, Right; each successor's state is the parent's state with the
blank swapped into the move's destination (`childNode`), its `g_cost` is the
parent's plus one, its `h_cost` is the heuristic of its new state, and its
parent link is the input node. The input node's state is untouched —
`expand` builds every successor grid with `swapCells` on a copy, the
embedding of `copy.deepcopy` followed by the swap. -/
theorem expand_characterization (node : PuzzleNode) (goal_state : Config)
    (heuristic_func : Config → Config → Nat) (br bc : Nat)
    (hblank : find_blank node.state = some (br, bc)) :
    expand node goal_state heuristic_func
        = (moves.filter (inBoundsMove node.state br bc)).map
            (childNode node goal_state heuristic_func br bc) ∧
      ∀ c ∈ expand node goal_state heuristic_func,
        c.g_cost = node.g_cost + 1 ∧
        c.h_cost = heuristic_func c.state goal_state ∧
        c.parent = some node := by
  have he : expand node goal_state heuristic_func
      = (moves.filter (inBoundsMove node.state br bc)).map
          (childNode node goal_state heuristic_func br bc) := by
    unfold expand
    rw [hblank]
    simpa using foldl_append_if_eq (inBoundsMove node.state br bc)
      (childNode node goal_state heuristic_func br bc) moves []
  refine ⟨he, ?_⟩
  intro c hc
  rw [he] at hc
  rcases List.mem_map.mp hc with ⟨m, _, rfl⟩
  exact ⟨rfl, rfl, rfl⟩

/-- Witness for C5 at a concrete input: the root node at `d1c` (blank at
`(1, 2)`) expands to the in-bounds successors in order. -/
theorem expand_characterization_witness :
    expand (start_node d1c goal3 .zero) goal3 (selectHeuristic .zero goal3)
      = (moves.filter (inBoundsMove (start_node d1c goal3 .zero).state 1 2)).map
          (childNode (start_node d1c goal3 .zero) goal3
            (selectHeuristic .zero goal3) 1 2) :=
  (expand_characterization (start_node d1c goal3 .zero) goal3
    (selectHeuristic .zero goal3) 1 2 (by decide)).1

/-- C4: the two non-goal branches of a search-loop iteration. Whenever the
popped node's configuration is not the goal: (1) if it is already explored,
the iteration discards the node — the loop continues with the remaining
frontier and the explored set, the expansion counter, and the successor
machinery untouched; (2) otherwise the configuration joins the explored set,
the counter rises by exactly one, and the new frontier is the old one (minus
the popped node) with exactly those successors pushed whose configuration is
not in the (just-updated) explored set. -/
theorem search_step_explored_discipline :
    (∀ (goal_state : Config) (heuristic_func : Config → Config → Nat)
        (st : LoopState) (current_node : PuzzleNode) (rest : List PuzzleNode),
      heappop nodeLT st.frontier = some (current_node, rest) →
      goal_test current_node.state goal_state = false →
      current_node.state ∈ st.explored →
      searchStep goal_state heuristic_func st
        = .next ⟨rest, st.explored, st.expanded_count,
            max st.max_queue_size st.frontier.length⟩) ∧
    (∀ (goal_state : Config) (heuristic_func : Config → Config → Nat)
        (st : LoopState) (current_node : PuzzleNode) (rest : List PuzzleNode),
      heappop nodeLT st.frontier = some (current_node, rest) →
      goal_test current_node.state goal_state = false →
      current_node.state ∉ st.explored →
      searchStep goal_state heuristic_func st
        = .next ⟨((expand current_node goal_state heuristic_func).filter
              (fun c => decide (¬ c.state ∈ current_node.state :: st.explored))).foldl
                (heappush nodeLT) rest,
            current_node.state :: st.explored, st.expanded_count + 1,
            max st.max_queue_size st.frontier.length⟩) := by
  constructor
  · intro goal_state heuristic_func st current_node rest hpop hng hmem
    unfold searchStep
    rw [hpop]
    simp only [state_to_tuple, hng, Bool.false_eq_true, if_false, if_pos hmem]
  · intro goal_state heuristic_func st current_node rest hpop hng hmem
    unfold searchStep
    rw [hpop]
    simp only [state_to_tuple, hng, Bool.false_eq_true, if_false, if_neg hmem]
    rw [foldl_push_if_eq (fun c => c.state ∈ current_node.state :: st.explored)
      (heappush nodeLT) (expand current_node goal_state heuristic_func) rest]

/-- Witness for C4 at concrete loop states: popping the non-goal node at
`d1c` with `d1c` already explored discards it unchanged; popping it with an
empty explored set expands it, adding `d1c` to the explored set and bumping
the counter from 5 to 6. -/
theorem search_step_explored_discipline_witness :
    searchStep goal3 (selectHeuristic .zero goal3)
        ⟨[start_node d1c goal3 .zero], [d1c], 5, 2⟩
        = .next ⟨[], [d1c], 5, max 2 1⟩ ∧
      searchStep goal3 (selectHeuristic .zero goal3)
        ⟨[start_node d1c goal3 .zero], [], 5, 2⟩
        = .next ⟨((expand (start_node d1c goal3 .zero) goal3
              (selectHeuristic .zero goal3)).filter
              (fun c => decide (¬ c.state ∈ [d1c]))).foldl (heappush nodeLT) [],
            [d1c], 6, max 2 1⟩ :=
  ⟨search_step_explored_discipline.1 goal3 (selectHeuristic .zero goal3)
      ⟨[start_node d1c goal3 .zero], [d1c], 5, 2⟩ (start_node d1c goal3 .zero)
      [] (by rfl) (by decide) (by decide),
    search_step_explored_discipline.2 goal3 (selectHeuristic .zero goal3)
      ⟨[start_node d1c goal3 .zero], [], 5, 2⟩ (start_node d1c goal3 .zero)
      [] (by rfl) (by decide) (by decide)⟩

/-- Counterexample to C2 as stated: the tie-break does not favor deeper
(higher-`g`) nodes. `nodeShallow` (g = 0) and `nodeDeep` (g = 1) have equal
`f_cost = 2`, yet the ordering puts the shallower node strictly first, and a
heap holding both pops the shallower one. -/
theorem tie_break_favors_shallower_counterexample :
    nodeShallow.f_cost = nodeDeep.f_cost ∧
      nodeShallow.g_cost < nodeDeep.g_cost ∧
      nodeLT nodeShallow nodeDeep = true ∧
      nodeLT nodeDeep nodeShallow = false ∧
      heappop nodeLT (heappush nodeLT (heappush nodeLT [] nodeDeep) nodeShallow)
        = some (nodeShallow, [nodeDeep]) :=
  ⟨rfl, by decide, rfl, rfl, rfl⟩

/-! ## Order properties of the node comparison -/

/-- The strict comparison, in arithmetic form. -/
theorem nodeLT_eq_true_iff (a b : PuzzleNode) :
    nodeLT a b = true ↔
      (a.f_cost < b.f_cost ∨ (a.f_cost = b.f_cost ∧ a.g_cost < b.g_cost)) := by
  unfold nodeLT
  by_cases hf : a.f_cost = b.f_cost <;> simp [hf] <;> omega

/-- The complement of the strict comparison, in arithmetic form. -/
theorem nodeLT_eq_false_iff (a b : PuzzleNode) :
    nodeLT a b = false ↔
      (b.f_cost < a.f_cost ∨ (a.f_cost = b.f_cost ∧ b.g_cost ≤ a.g_cost)) := by
  unfold nodeLT
  by_cases hf : a.f_cost = b.f_cost <;> simp [hf] <;> omega

/-- `PuzzleNode.__lt__` is asymmetric. -/
theorem nodeLT_asymm : LtAsymm nodeLT := by
  intro a b h
  rw [nodeLT_eq_true_iff] at h
  rw [nodeLT_eq_false_iff]
  omega

/-- The complement of `PuzzleNode.__lt__` is transitive. -/
theorem nodeLT_negtrans : LtNegTrans nodeLT := by
  intro a b c hab hbc
  rw [nodeLT_eq_false_iff] at hab hbc
  rw [nodeLT_eq_false_iff]
  omega

/-- Asymmetry gives irreflexivity. -/
theorem lt_irrefl_of_asymm {α : Type _} {lt : α → α → Bool} (hA : LtAsymm lt)
    (a : α) : lt a a = false := by
  by_cases h : lt a a = true
  · have := hA a a h
    simp [h] at this
  · simpa using h

/-- Asymmetry and complement-transitivity give transitivity of the strict
comparison. -/
theorem lt_trans_of_asymm_negtrans {α : Type _} {lt : α → α → Bool}
    (hA : LtAsymm lt) (hN : LtNegTrans lt) {a b c : α}
    (hab : lt a b = true) (hbc : lt b c = true) : lt a c = true := by
  by_cases hac : lt a c = true
  · exact hac
  · have hac' : lt a c = false := by simpa using hac
    have hcb : lt c b = false := hA b c hbc
    have : lt a b = false := hN a c b hac' hcb
    rw [hab] at this
    exact absurd this (by simp)

/-- If `b` is strictly below `c` and `a` is not below `c`, then `a` is not
below `b`. -/
theorem not_lt_of_lt_of_not_lt {α : Type _} {lt : α → α → Bool}
    (hA : LtAsymm lt) (hN : LtNegTrans lt) {a b c : α}
    (hbc : lt b c = true) (hac : lt a c = false) : lt a b = false := by
  by_cases hab : lt a b = true
  · have := lt_trans_of_asymm_negtrans hA hN hab hbc
    rw [this] at hac
    exact absurd hac (by simp)
  · simpa using hab

/-! ## Index and `lget` lemmas -/

/-- Reading a just-written position. -/
theorem lget_set_eq {α : Type _} [Inhabited α] (l : List α) (i : Nat)
    (v : α) (h : i < l.length) : lget (l.set i v) i = v := by
  unfold lget
  rw [List.getD_eq_getElem _ _ (by simpa using h)]
  simp [List.getElem_set_self]

/-- Reading an untouched position. -/
theorem lget_set_ne {α : Type _} [Inhabited α] (l : List α) (i j : Nat)
    (v : α) (hne : i ≠ j) : lget (l.set i v) j = lget l j := by
  unfold lget
  by_cases hj : j < l.length
  · rw [List.getD_eq_getElem _ _ (by simpa using hj),
      List.getD_eq_getElem _ _ hj]
    exact List.getElem_set_ne hne _
  · rw [List.getD_eq_default _ _ (by simpa using Nat.le_of_not_lt hj),
      List.getD_eq_default _ _ (Nat.le_of_not_lt hj)]

/-- An in-bounds read is a member. -/
theorem lget_mem {α : Type _} [Inhabited α] (l : List α) (i : Nat)
    (h : i < l.length) : lget l i ∈ l := by
  unfold lget
  rw [List.getD_eq_getElem _ _ h]
  exact List.getElem_mem h

/-- A member of `l.set i v` is a member of `l` or is `v`. -/
theorem mem_of_mem_set {α : Type _} {l : List α} {i : Nat} {v a : α}
    (h : a ∈ l.set i v) : a ∈ l ∨ a = v := by
  rcases List.mem_or_eq_of_mem_set h with h' | h'
  · exact Or.inl h'
  · exact Or.inr h'

/-- Reading inside the left part of an append. -/
theorem lget_append_left {α : Type _} [Inhabited α] (l l' : List α) (i : Nat)
    (h : i < l.length) : lget (l ++ l') i = lget l i := by
  unfold lget
  rw [List.getD_eq_getElem _ _ (by simp; omega), List.getD_eq_getElem _ _ h]
  exact List.getElem_append_left h

/-- Reading the appended element. -/
theorem lget_append_right_self {α : Type _} [Inhabited α] (l : List α)
    (v : α) : lget (l ++ [v]) l.length = v := by
  unfold lget
  rw [List.getD_eq_getElem _ _ (by simp)]
  simp

/-- Reading `dropLast` below its length. -/
theorem lget_dropLast {α : Type _} [Inhabited α] (l : List α) (i : Nat)
    (h : i < l.dropLast.length) : lget l.dropLast i = lget l i := by
  unfold lget
  have hl : i < l.length := by
    simp only [List.length_dropLast] at h
    omega
  rw [List.getD_eq_getElem _ _ h, List.getD_eq_getElem _ _ hl]
  exact List.getElem_dropLast l i h

/-! ## Correctness of the embedded `heapq` -/

/-- In a heap, the root is minimal: no entry compares strictly below it. -/
theorem isHeap_root_min {α : Type _} [Inhabited α] {lt : α → α → Bool}
    (hA : LtAsymm lt) (hN : LtNegTrans lt) {l : List α} (hh : IsHeap lt l) :
    ∀ i, i < l.length → lt (lget l i) (lget l 0) = false := by
  intro i
  induction i using Nat.strong_induction_on with
  | _ i ih =>
    intro hi
    by_cases h0 : i = 0
    · subst h0
      exact lt_irrefl_of_asymm hA _
    · have hpos : 0 < i := Nat.pos_of_ne_zero h0
      have hchild : i = 2 * ((i - 1) / 2) + 1 ∨ i = 2 * ((i - 1) / 2) + 2 := by
        omega
      have h1 : lt (lget l i) (lget l ((i - 1) / 2)) = false := hh _ _ hchild hi
      have h2 : lt (lget l ((i - 1) / 2)) (lget l 0) = false :=
        ih _ (by omega) (by omega)
      exact hN _ _ _ h1 h2

/-- Writing `newitem` at the hole finishes a sift: the array is a heap
provided every edge away from the hole holds, the hole's children are not
below `newitem`, and `newitem` is not below the hole's parent. -/
theorem set_newitem_isHeap {α : Type _} [Inhabited α] {lt : α → α → Bool}
    (newitem : α) (l : List α) (pos : Nat) (hpos : pos < l.length)
    (hK1 : ∀ i j, (j = 2 * i + 1 ∨ j = 2 * i + 2) → j < l.length →
      i ≠ pos → j ≠ pos → lt (lget l j) (lget l i) = false)
    (hK2 : ∀ j, (j = 2 * pos + 1 ∨ j = 2 * pos + 2) → j < l.length →
      lt (lget l j) newitem = false)
    (hstop : pos = 0 ∨ lt newitem (lget l ((pos - 1) / 2)) = false) :
    IsHeap lt (l.set pos newitem) := by
  intro i j hcj hj
  rw [List.length_set] at hj
  by_cases hip : i = pos
  · have hjne : pos ≠ j := by omega
    rw [hip, lget_set_eq l pos newitem hpos, lget_set_ne l pos j newitem hjne]
    rw [hip] at hcj
    exact hK2 j hcj hj
  · by_cases hjp : j = pos
    · have hi : i = (pos - 1) / 2 := by omega
      have hp0 : 0 < pos := by omega
      rw [hjp, lget_set_eq l pos newitem hpos,
        lget_set_ne l pos i newitem (by omega)]
      rcases hstop with h0 | hs
      · omega
      · rw [hi]
        exact hs
    · rw [lget_set_ne l pos j newitem (by omega),
        lget_set_ne l pos i newitem (by omega)]
      exact hK1 i j hcj hj hip hjp

/-- The bubble-up phase (`_siftdown`) restores the heap invariant: given the
almost-heap conditions at the hole `pos` — all edges not into the hole hold
(K1), the hole's children are not below the item being placed (K2), nor below
the hole's parent (K3) — the result is a heap. The counter only needs to
dominate `pos`. -/
theorem siftdownAux_isHeap {α : Type _} [Inhabited α] {lt : α → α → Bool}
    (hA : LtAsymm lt) (hN : LtNegTrans lt) (newitem : α) :
    ∀ (fuel : Nat) (l : List α) (pos : Nat), pos ≤ fuel → pos < l.length →
      (∀ i j, (j = 2 * i + 1 ∨ j = 2 * i + 2) → j < l.length →
        i ≠ pos → j ≠ pos → lt (lget l j) (lget l i) = false) →
      (∀ j, (j = 2 * pos + 1 ∨ j = 2 * pos + 2) → j < l.length →
        lt (lget l j) newitem = false) →
      (0 < pos → ∀ j, (j = 2 * pos + 1 ∨ j = 2 * pos + 2) → j < l.length →
        lt (lget l j) (lget l ((pos - 1) / 2)) = false) →
      IsHeap lt (siftdownAux lt newitem fuel l pos) := by
  intro fuel
  induction fuel with
  | zero =>
    intro l pos hf hpos hK1 hK2 _
    have h0 : pos = 0 := by omega
    show IsHeap lt (l.set pos newitem)
    exact set_newitem_isHeap newitem l pos hpos hK1 hK2 (Or.inl h0)
  | succ fuel ih =>
    intro l pos hf hpos hK1 hK2 hK3
    by_cases hp : 0 < pos
    · by_cases hlt : lt newitem (lget l ((pos - 1) / 2)) = true
      · have hstep : siftdownAux lt newitem (fuel + 1) l pos
            = siftdownAux lt newitem fuel
                (l.set pos (lget l ((pos - 1) / 2))) ((pos - 1) / 2) := by
          simp [siftdownAux, hp, hlt]
        rw [hstep]
        have hplen : (pos - 1) / 2 < l.length := by omega
        apply ih
        · omega
        · rw [List.length_set]
          omega
        · -- K1 for the moved-up hole
          intro i j hcj hjlen hipp hjpp
          rw [List.length_set] at hjlen
          by_cases hipos : i = pos
          · have hjne : pos ≠ j := by omega
            rw [hipos, lget_set_eq l pos _ hpos, lget_set_ne l pos j _ hjne]
            rw [hipos] at hcj
            exact hK3 hp j hcj hjlen
          · by_cases hjpos : j = pos
            · omega
            · rw [lget_set_ne l pos j _ (by omega),
                lget_set_ne l pos i _ (by omega)]
              exact hK1 i j hcj hjlen hipos hjpos
        · -- K2 for the moved-up hole
          intro j hcj hjlen
          rw [List.length_set] at hjlen
          by_cases hjpos : j = pos
          · rw [hjpos, lget_set_eq l pos _ hpos]
            exact hA _ _ hlt
          · rw [lget_set_ne l pos j _ (by omega)]
            have h1 : lt (lget l j) (lget l ((pos - 1) / 2)) = false :=
              hK1 ((pos - 1) / 2) j hcj hjlen (by omega) hjpos
            exact not_lt_of_lt_of_not_lt hA hN hlt h1
        · -- K3 for the moved-up hole
          intro hpp j hcj hjlen
          rw [List.length_set] at hjlen
          have hedge : (pos - 1) / 2 = 2 * (((pos - 1) / 2 - 1) / 2) + 1 ∨
              (pos - 1) / 2 = 2 * (((pos - 1) / 2 - 1) / 2) + 2 := by omega
          have h2 : lt (lget l ((pos - 1) / 2))
              (lget l (((pos - 1) / 2 - 1) / 2)) = false :=
            hK1 _ _ hedge (by omega) (by omega) (by omega)
          rw [lget_set_ne l pos (((pos - 1) / 2 - 1) / 2) _ (by omega)]
          by_cases hjpos : j = pos
          · rw [hjpos, lget_set_eq l pos _ hpos]
            exact h2
          · rw [lget_set_ne l pos j _ (by omega)]
            have h1 : lt (lget l j) (lget l ((pos - 1) / 2)) = false :=
              hK1 ((pos - 1) / 2) j hcj hjlen (by omega) hjpos
            exact hN _ _ _ h1 h2
      · have hlt' : lt newitem (lget l ((pos - 1) / 2)) = false := by
          simpa using hlt
        have hstep : siftdownAux lt newitem (fuel + 1) l pos
            = l.set pos newitem := by
          simp [siftdownAux, hp, hlt']
        rw [hstep]
        exact set_newitem_isHeap newitem l pos hpos hK1 hK2 (Or.inr hlt')
    · have hstep : siftdownAux lt newitem (fuel + 1) l pos
          = l.set pos newitem := by
        simp [siftdownAux, hp]
      rw [hstep]
      exact set_newitem_isHeap newitem l pos hpos hK1 hK2
        (Or.inl (by omega))

/-- `heappush` preserves the heap invariant. -/
theorem heappush_isHeap {α : Type _} [Inhabited α] {lt : α → α → Bool}
    (hA : LtAsymm lt) (hN : LtNegTrans lt) {heap : List α}
    (hh : IsHeap lt heap) (item : α) : IsHeap lt (heappush lt heap item) := by
  unfold heappush pysiftdown
  rw [lget_append_right_self]
  apply siftdownAux_isHeap hA hN
  · exact Nat.le_refl _
  · simp
  · intro i j hcj hjlen hip hjp
    rw [List.length_append, List.length_cons, List.length_nil] at hjlen
    have hj : j < heap.length := by omega
    have hi : i < heap.length := by omega
    rw [lget_append_left heap [item] j hj, lget_append_left heap [item] i hi]
    exact hh i j hcj hj
  · intro j hcj hjlen
    rw [List.length_append, List.length_cons, List.length_nil] at hjlen
    omega
  · intro _ j hcj hjlen
    rw [List.length_append, List.length_cons, List.length_nil] at hjlen
    omega

/-- The promoted child of `_siftup` is not above its sibling, and is a child
of `pos` below `endpos`. -/
theorem siftupChild_spec {α : Type _} [Inhabited α] {lt : α → α → Bool}
    (hA : LtAsymm lt) (heap : List α) (endpos pos : Nat)
    (hguard : 2 * pos + 1 < endpos) :
    (siftupChild lt endpos heap pos = 2 * pos + 1 ∨
      siftupChild lt endpos heap pos = 2 * pos + 2) ∧
    siftupChild lt endpos heap pos < endpos ∧
    (∀ o, (o = 2 * pos + 1 ∨ o = 2 * pos + 2) → o < endpos →
      o ≠ siftupChild lt endpos heap pos →
      lt (lget heap o) (lget heap (siftupChild lt endpos heap pos)) = false) := by
  unfold siftupChild
  by_cases hsel : 2 * pos + 1 + 1 < endpos ∧
      ¬ lt (lget heap (2 * pos + 1)) (lget heap (2 * pos + 1 + 1)) = true
  · rw [if_pos hsel]
    refine ⟨Or.inr rfl, by omega, ?_⟩
    intro o hco hoend hone
    have ho : o = 2 * pos + 1 := by omega
    rw [ho]
    have := hsel.2
    simpa using this
  · rw [if_neg hsel]
    refine ⟨Or.inl rfl, hguard, ?_⟩
    intro o hco hoend hone
    have ho : o = 2 * pos + 2 := by omega
    rcases Decidable.not_and_iff_or_not.mp hsel with hs | hs
    · omega
    · have hlt : lt (lget heap (2 * pos + 1)) (lget heap (2 * pos + 1 + 1))
          = true := by simpa using hs
      rw [ho]
      exact hA _ _ hlt

/-- The descend-then-bubble phase (`_siftup`) restores the heap invariant:
given that every edge not out of the hole `pos` holds (M1) and the hole's
children are not below the hole's parent (M2), the result is a heap. The
counter only needs to dominate `endpos - pos`, and `endpos` is the length. -/
theorem siftupAux_isHeap {α : Type _} [Inhabited α] {lt : α → α → Bool}
    (hA : LtAsymm lt) (hN : LtNegTrans lt) (newitem : α) (endpos : Nat) :
    ∀ (fuel : Nat) (l : List α) (pos : Nat), endpos = l.length →
      endpos - pos ≤ fuel → pos < l.length →
      (∀ i j, (j = 2 * i + 1 ∨ j = 2 * i + 2) → j < l.length →
        i ≠ pos → lt (lget l j) (lget l i) = false) →
      (0 < pos → ∀ j, (j = 2 * pos + 1 ∨ j = 2 * pos + 2) → j < l.length →
        lt (lget l j) (lget l ((pos - 1) / 2)) = false) →
      IsHeap lt (siftupAux lt endpos newitem fuel l pos) := by
  intro fuel
  induction fuel with
  | zero =>
    intro l pos hend hf hpos _ _
    exact absurd hpos (by omega)
  | succ fuel ih =>
    intro l pos hend hf hpos hM1 hM2
    by_cases hguard : 2 * pos + 1 < endpos
    · have hstep : siftupAux lt endpos newitem (fuel + 1) l pos
          = siftupAux lt endpos newitem fuel
              (l.set pos (lget l (siftupChild lt endpos l pos)))
              (siftupChild lt endpos l pos) := by
        simp [siftupAux, hguard]
      rw [hstep]
      rcases siftupChild_spec hA l endpos pos hguard with ⟨hcp12, hcpend, hsel⟩
      have hcppos : pos < siftupChild lt endpos l pos := by omega
      have hcplen : siftupChild lt endpos l pos < l.length := by omega
      apply ih
      · rw [List.length_set]
        exact hend
      · omega
      · rw [List.length_set]
        exact hcplen
      · -- M1 for the descended hole
        intro i j hcj hjlen hicp
        rw [List.length_set] at hjlen
        by_cases hipos : i = pos
        · by_cases hjcp : j = siftupChild lt endpos l pos
          · rw [hipos, hjcp, lget_set_eq l pos _ hpos,
              lget_set_ne l pos (siftupChild lt endpos l pos) _ (by omega)]
            exact lt_irrefl_of_asymm hA _
          · have hjpos : pos ≠ j := by omega
            rw [hipos, lget_set_eq l pos _ hpos, lget_set_ne l pos j _ hjpos]
            rw [hipos] at hcj
            exact hsel j hcj (by omega) hjcp
        · by_cases hjpos : j = pos
          · have hp0 : 0 < pos := by omega
            have hieq : i = (pos - 1) / 2 := by omega
            rw [hjpos, lget_set_eq l pos _ hpos,
              lget_set_ne l pos i _ (by omega), hieq]
            exact hM2 hp0 _ hcp12 hcplen
          · rw [lget_set_ne l pos j _ (by omega),
              lget_set_ne l pos i _ (by omega)]
            exact hM1 i j hcj hjlen hipos
      · -- M2 for the descended hole
        intro _ j hcj hjlen
        rw [List.length_set] at hjlen
        have hpar : (siftupChild lt endpos l pos - 1) / 2 = pos := by omega
        rw [hpar, lget_set_eq l pos _ hpos,
          lget_set_ne l pos j _ (by omega)]
        exact hM1 _ j hcj hjlen (by omega)
    · have hstep : siftupAux lt endpos newitem (fuel + 1) l pos
          = pysiftdown lt (l.set pos newitem) pos := by
        simp [siftupAux, hguard]
      rw [hstep]
      unfold pysiftdown
      rw [lget_set_eq l pos _ hpos]
      apply siftdownAux_isHeap hA hN
      · exact Nat.le_refl _
      · rw [List.length_set]
        exact hpos
      · intro i j hcj hjlen hip hjp
        rw [List.length_set] at hjlen
        rw [lget_set_ne l pos j _ (by omega),
          lget_set_ne l pos i _ (by omega)]
        exact hM1 i j hcj hjlen hip
      · intro j hcj hjlen
        rw [List.length_set] at hjlen
        omega
      · intro _ j hcj hjlen
        rw [List.length_set] at hjlen
        omega

/-- `heappop` returns the root of the heap array. -/
theorem heappop_fst {α : Type _} [Inhabited α] {lt : α → α → Bool}
    {heap : List α} {x : α} {r : List α}
    (hpop : heappop lt heap = some (x, r)) : x = lget heap 0 := by
  cases heap with
  | nil => simp [heappop] at hpop
  | cons a t =>
    simp only [heappop] at hpop
    by_cases hemp : (a :: t).dropLast.isEmpty = true
    · rw [if_pos hemp] at hpop
      have ht : t = [] := by
        have := List.isEmpty_iff.mp hemp
        have hlen := congrArg List.length this
        simp at hlen
        exact hlen
      subst ht
      have := (Option.some.inj hpop)
      have hx := congrArg Prod.fst this
      simpa using hx.symm
    · rw [if_neg hemp] at hpop
      have := (Option.some.inj hpop)
      have hx := congrArg Prod.fst this
      simp at hx
      rw [← hx]
      have hlen : 0 < (a :: t).dropLast.length := by
        rcases List.isEmpty_eq_false_iff_exists_mem.mp (by simpa using hemp)
          with ⟨z, hz⟩
        exact List.length_pos.mpr (fun h => by simp [h] at hz)
      exact lget_dropLast (a :: t) 0 hlen

/-- `heappop` of a heap pops a minimal element: no member of the heap
compares strictly below the returned item. -/
theorem heappop_min {α : Type _} [Inhabited α] {lt : α → α → Bool}
    (hA : LtAsymm lt) (hN : LtNegTrans lt) {heap : List α}
    (hh : IsHeap lt heap) {x : α} {r : List α}
    (hpop : heappop lt heap = some (x, r)) :
    ∀ y ∈ heap, lt y x = false := by
  intro y hy
  rcases List.mem_iff_getElem.mp hy with ⟨i, hi, hiy⟩
  have hly : lget heap i = y := by
    unfold lget
    rw [List.getD_eq_getElem _ _ hi]
    exact hiy
  rw [heappop_fst hpop, ← hly]
  exact isHeap_root_min hA hN hh i hi

/-- `heappop` of a heap leaves a heap. -/
theorem heappop_isHeap {α : Type _} [Inhabited α] {lt : α → α → Bool}
    (hA : LtAsymm lt) (hN : LtNegTrans lt) {heap : List α}
    (hh : IsHeap lt heap) {x : α} {r : List α}
    (hpop : heappop lt heap = some (x, r)) : IsHeap lt r := by
  cases heap with
  | nil => simp [heappop] at hpop
  | cons a t =>
    simp only [heappop] at hpop
    by_cases hemp : (a :: t).dropLast.isEmpty = true
    · rw [if_pos hemp] at hpop
      have hr := congrArg Prod.snd (Option.some.inj hpop)
      simp only at hr
      rw [← hr, List.isEmpty_iff.mp hemp]
      intro i j hcj hjlen
      simp at hjlen
    · rw [if_neg hemp] at hpop
      have hr := congrArg Prod.snd (Option.some.inj hpop)
      simp only at hr
      rw [← hr]
      unfold pysiftup
      have hrl : 0 < (a :: t).dropLast.length := by
        rcases List.isEmpty_eq_false_iff_exists_mem.mp (by simpa using hemp)
          with ⟨z, hz⟩
        exact List.length_pos.mpr (fun h => by simp [h] at hz)
      apply siftupAux_isHeap hA hN
      · rw [List.length_set]
      · omega
      · rw [List.length_set]
        exact hrl
      · intro i j hcj hjlen hip
        rw [List.length_set] at hjlen
        have hj0 : (0 : Nat) ≠ j := by omega
        have hi0 : (0 : Nat) ≠ i := by omega
        rw [lget_set_ne _ 0 j _ hj0, lget_set_ne _ 0 i _ hi0,
          lget_dropLast _ j hjlen, lget_dropLast _ i (by omega)]
        apply hh i j hcj
        have := List.length_dropLast (a :: t)
        omega
      · intro h0 _ _ _
        exact absurd h0 (by omega)

/-- Everything in a sift-down result was in the array or is the new item. -/
theorem siftdownAux_mem {α : Type _} [Inhabited α] {lt : α → α → Bool}
    (newitem : α) :
    ∀ (fuel : Nat) (l : List α) (pos : Nat), pos < l.length →
      ∀ y ∈ siftdownAux lt newitem fuel l pos, y ∈ l ∨ y = newitem := by
  intro fuel
  induction fuel with
  | zero =>
    intro l pos _ y hy
    exact mem_of_mem_set hy
  | succ fuel ih =>
    intro l pos hpos y hy
    by_cases hp : 0 < pos
    · by_cases hlt : lt newitem (lget l ((pos - 1) / 2)) = true
      · rw [show siftdownAux lt newitem (fuel + 1) l pos
            = siftdownAux lt newitem fuel
                (l.set pos (lget l ((pos - 1) / 2))) ((pos - 1) / 2) by
          simp [siftdownAux, hp, hlt]] at hy
        rcases ih _ _ (by rw [List.length_set]; omega) y hy with h | h
        · rcases mem_of_mem_set h with h' | h'
          · exact Or.inl h'
          · rw [h']
            exact Or.inl (lget_mem l _ (by omega))
        · exact Or.inr h
      · rw [show siftdownAux lt newitem (fuel + 1) l pos = l.set pos newitem by
          simp [siftdownAux, hp, hlt]] at hy
        exact mem_of_mem_set hy
    · rw [show siftdownAux lt newitem (fuel + 1) l pos = l.set pos newitem by
        simp [siftdownAux, hp]] at hy
      exact mem_of_mem_set hy

/-- The selected child is below `endpos` when the loop guard holds. -/
theorem siftupChild_lt_endpos {α : Type _} [Inhabited α] (lt : α → α → Bool)
    (endpos : Nat) (heap : List α) (pos : Nat)
    (hguard : 2 * pos + 1 < endpos) :
    siftupChild lt endpos heap pos < endpos := by
  unfold siftupChild
  by_cases h : 2 * pos + 1 + 1 < endpos ∧
      ¬ lt (lget heap (2 * pos + 1)) (lget heap (2 * pos + 1 + 1)) = true
  · rw [if_pos h]
    omega
  · rw [if_neg h]
    omega

/-- Everything in a sift-up result was in the array or is the new item. -/
theorem siftupAux_mem {α : Type _} [Inhabited α] {lt : α → α → Bool}
    (newitem : α) (endpos : Nat) :
    ∀ (fuel : Nat) (l : List α) (pos : Nat), endpos = l.length →
      pos < l.length →
      ∀ y ∈ siftupAux lt endpos newitem fuel l pos, y ∈ l ∨ y = newitem := by
  intro fuel
  induction fuel with
  | zero =>
    intro l pos _ hpos y hy
    unfold siftupAux pysiftdown at hy
    rw [lget_set_eq l pos _ hpos] at hy
    rcases siftdownAux_mem newitem pos _ pos (by rw [List.length_set]; omega)
      y hy with h | h
    · exact mem_of_mem_set h
    · exact Or.inr h
  | succ fuel ih =>
    intro l pos hend hpos y hy
    by_cases hguard : 2 * pos + 1 < endpos
    · rw [show siftupAux lt endpos newitem (fuel + 1) l pos
          = siftupAux lt endpos newitem fuel
              (l.set pos (lget l (siftupChild lt endpos l pos)))
              (siftupChild lt endpos l pos) by simp [siftupAux, hguard]] at hy
      have hcp : siftupChild lt endpos l pos < l.length := by
        have := siftupChild_lt_endpos lt endpos l pos hguard
        omega
      rcases ih _ _ (by rw [List.length_set]; exact hend)
        (by rw [List.length_set]; omega) y hy with h | h
      · rcases mem_of_mem_set h with h' | h'
        · exact Or.inl h'
        · rw [h']
          exact Or.inl (lget_mem l _ hcp)
      · exact Or.inr h
    · rw [show siftupAux lt endpos newitem (fuel + 1) l pos
          = pysiftdown lt (l.set pos newitem) pos by
        simp [siftupAux, hguard]] at hy
      unfold pysiftdown at hy
      rw [lget_set_eq l pos _ hpos] at hy
      rcases siftdownAux_mem newitem pos _ pos (by rw [List.length_set]; omega)
        y hy with h | h
      · exact mem_of_mem_set h
      · exact Or.inr h

/-- Everything in `heappush lt heap item` was in `heap` or is `item`. -/
theorem heappush_mem {α : Type _} [Inhabited α] {lt : α → α → Bool}
    (heap : List α) (item : α) :
    ∀ y ∈ heappush lt heap item, y ∈ heap ∨ y = item := by
  intro y hy
  unfold heappush pysiftdown at hy
  rw [lget_append_right_self] at hy
  rcases siftdownAux_mem item heap.length _ heap.length (by simp) y hy
    with h | h
  · rcases List.mem_append.mp h with h' | h'
    · exact Or.inl h'
    · simp at h'
      exact Or.inr h'
  · exact Or.inr h

/-- `heappop` pops a member and leaves only members. -/
theorem heappop_mem {α : Type _} [Inhabited α] {lt : α → α → Bool}
    {heap : List α} {x : α} {r : List α}
    (hpop : heappop lt heap = some (x, r)) :
    x ∈ heap ∧ ∀ y ∈ r, y ∈ heap := by
  cases heap with
  | nil => simp [heappop] at hpop
  | cons a t =>
    have hx : x ∈ a :: t := by
      rw [heappop_fst hpop]
      exact lget_mem _ 0 (by simp)
    refine ⟨hx, ?_⟩
    simp only [heappop] at hpop
    by_cases hemp : (a :: t).dropLast.isEmpty = true
    · rw [if_pos hemp] at hpop
      have hr := congrArg Prod.snd (Option.some.inj hpop)
      simp only at hr
      rw [← hr, List.isEmpty_iff.mp hemp]
      intro y hy
      simp at hy
    · rw [if_neg hemp] at hpop
      have hr := congrArg Prod.snd (Option.some.inj hpop)
      simp only at hr
      rw [← hr]
      have hrl : 0 < (a :: t).dropLast.length := by
        rcases List.isEmpty_eq_false_iff_exists_mem.mp (by simpa using hemp)
          with ⟨z, hz⟩
        exact List.length_pos.mpr (fun h => by simp [h] at hz)
      intro y hy
      unfold pysiftup at hy
      rcases siftupAux_mem _ _ _ _ 0 (by rw [List.length_set])
        (by rw [List.length_set]; omega) y hy with h | h
      · rcases mem_of_mem_set h with h' | h'
        · exact (List.dropLast_sublist (a :: t)).subset h'
        · rw [h']
          exact lget_mem _ _ (by simp)
      · rw [h]
        have h0 : (0 : Nat) < ((a :: t).dropLast.set 0
            (lget (a :: t) ((a :: t).length - 1))).length := by
          rw [List.length_set]
          omega
        have := lget_mem _ 0 h0
        rcases mem_of_mem_set this with h' | h'
        · exact (List.dropLast_sublist (a :: t)).subset h'
        · rw [h']
          exact lget_mem _ _ (by simp)

/-! ## Loop invariants of the search engine -/

/-- A one-element frontier is a heap. -/
theorem isHeap_singleton {α : Type _} [Inhabited α] (lt : α → α → Bool)
    (x : α) : IsHeap lt [x] := by
  intro i j hcj hjlen
  simp at hjlen
  omega

/-- The conditional-push fold of the expansion step preserves the heap
invariant. -/
theorem foldl_cond_push_isHeap (ex : List Config) :
    ∀ (l : List PuzzleNode) (acc : List PuzzleNode), IsHeap nodeLT acc →
      IsHeap nodeLT (l.foldl (fun f c =>
        if state_to_tuple c.state ∈ ex then f else heappush nodeLT f c) acc) := by
  intro l
  induction l with
  | nil => intro acc h; exact h
  | cons x xs ih =>
    intro acc h
    rw [List.foldl_cons]
    by_cases hm : state_to_tuple x.state ∈ ex
    · rw [if_pos hm]
      exact ih acc h
    · rw [if_neg hm]
      exact ih _ (heappush_isHeap nodeLT_asymm nodeLT_negtrans h x)

/-- Members of the conditional-push fold come from the accumulator or the
pushed list. -/
theorem foldl_cond_push_mem (ex : List Config) :
    ∀ (l : List PuzzleNode) (acc : List PuzzleNode) (y : PuzzleNode),
      y ∈ l.foldl (fun f c =>
        if state_to_tuple c.state ∈ ex then f else heappush nodeLT f c) acc →
      y ∈ acc ∨ y ∈ l := by
  intro l
  induction l with
  | nil => intro acc y hy; exact Or.inl hy
  | cons x xs ih =>
    intro acc y hy
    rw [List.foldl_cons] at hy
    by_cases hm : state_to_tuple x.state ∈ ex
    · rw [if_pos hm] at hy
      rcases ih acc y hy with h | h
      · exact Or.inl h
      · exact Or.inr (List.mem_cons_of_mem _ h)
    · rw [if_neg hm] at hy
      rcases ih _ y hy with h | h
      · rcases heappush_mem acc x y h with h' | h'
        · exact Or.inl h'
        · rw [h']
          exact Or.inr (List.mem_cons_self _ _)
      · exact Or.inr (List.mem_cons_of_mem _ h)

/-- A continuing search step keeps the frontier a heap. -/
theorem searchStep_preserves_isHeap {goal_state : Config}
    {heuristic_func : Config → Config → Nat} {st st' : LoopState}
    (hstep : searchStep goal_state heuristic_func st = .next st')
    (hh : IsHeap nodeLT st.frontier) : IsHeap nodeLT st'.frontier := by
  unfold searchStep at hstep
  cases hpop : heappop nodeLT st.frontier with
  | none =>
    rw [hpop] at hstep
    simp at hstep
  | some pr =>
    obtain ⟨cur, rest⟩ := pr
    rw [hpop] at hstep
    by_cases hg : goal_test cur.state goal_state = true
    · simp [hg] at hstep
    · have hg' : goal_test cur.state goal_state = false := by simpa using hg
      by_cases hm : state_to_tuple cur.state ∈ st.explored
      · simp only [hg', Bool.false_eq_true, if_false, if_pos hm] at hstep
        injection hstep with h
        rw [← h]
        exact heappop_isHeap nodeLT_asymm nodeLT_negtrans hh hpop
      · simp only [hg', Bool.false_eq_true, if_false, if_neg hm] at hstep
        injection hstep with h
        rw [← h]
        exact foldl_cond_push_isHeap _ _ _
          (heappop_isHeap nodeLT_asymm nodeLT_negtrans hh hpop)

/-- Every loop state reachable from a heap frontier has a heap frontier. -/
theorem searchReaches_isHeap {goal_state : Config}
    {heuristic_func : Config → Config → Nat} {st0 st : LoopState}
    (hr : SearchReaches goal_state heuristic_func st0 st)
    (h0 : IsHeap nodeLT st0.frontier) : IsHeap nodeLT st.frontier := by
  induction hr with
  | refl => exact h0
  | tail _ hstep ih => exact searchStep_preserves_isHeap hstep ih

/-- C2 (amended): in every Selecting step of a search run — any loop state
reachable from the initial one — the node `heappop` hands to the loop is
minimal under `PuzzleNode.__lt__`'s ordering (`f` ascending, ties broken by
`g` ascending): no frontier member compares strictly below it. The tie-break
favors the shallower node: among equal-`f` candidates the one with smaller
`g` compares strictly first. -/
theorem popped_node_minimal :
    (∀ (initial_state goal_state : Config) (h : Heur) (st : LoopState),
      SearchReaches goal_state (selectHeuristic h goal_state)
        (init_state initial_state goal_state h) st →
      ∀ (current_node : PuzzleNode) (rest : List PuzzleNode),
        heappop nodeLT st.frontier = some (current_node, rest) →
        ∀ y ∈ st.frontier, nodeLT y current_node = false) ∧
    (∀ a b : PuzzleNode, a.f_cost = b.f_cost → a.g_cost < b.g_cost →
      nodeLT a b = true) := by
  constructor
  · intro initial_state goal_state h st hr current_node rest hpop y hy
    have hh : IsHeap nodeLT st.frontier := by
      apply searchReaches_isHeap hr
      rw [init_state, heapify_singleton]
      exact isHeap_singleton nodeLT _
    exact heappop_min nodeLT_asymm nodeLT_negtrans hh hpop y hy
  · intro a b hf hg
    rw [nodeLT_eq_true_iff]
    exact Or.inr ⟨hf, hg⟩

/-- Witness for C2's amended statement at concrete inputs: at the very first
Selecting step of the search from `d1c`, the singleton frontier's own node is
not below the popped node; and of the two equal-`f` nodes `nodeShallow`
(g = 0) and `nodeDeep` (g = 1), the shallower compares strictly first. -/
theorem popped_node_minimal_witness :
    nodeLT (start_node d1c goal3 .zero) (start_node d1c goal3 .zero) = false ∧
      nodeLT nodeShallow nodeDeep = true :=
  ⟨popped_node_minimal.1 d1c goal3 .zero (init_state d1c goal3 .zero)
      (SearchReaches.refl _) (start_node d1c goal3 .zero) [] (by rfl)
      (start_node d1c goal3 .zero)
      (by rw [init_state, heapify_singleton]; exact List.mem_singleton_self _),
    popped_node_minimal.2 nodeShallow nodeDeep (by decide) (by decide)⟩

/-- Decomposition of a continuing search step: some node was popped; the new
frontier holds only old frontier members and successors of the popped node;
the explored set is unchanged or extended by exactly the popped
configuration. -/
theorem searchStep_next_parts {goal_state : Config}
    {heuristic_func : Config → Config → Nat} {st st' : LoopState}
    (hstep : searchStep goal_state heuristic_func st = .next st') :
    ∃ cur rest, heappop nodeLT st.frontier = some (cur, rest) ∧
      (∀ y ∈ st'.frontier, y ∈ st.frontier ∨
        y ∈ expand cur goal_state heuristic_func) ∧
      (st'.explored = st.explored ∨
        st'.explored = cur.state :: st.explored) := by
  unfold searchStep at hstep
  cases hpop : heappop nodeLT st.frontier with
  | none =>
    rw [hpop] at hstep
    simp at hstep
  | some pr =>
    obtain ⟨cur, rest⟩ := pr
    rw [hpop] at hstep
    refine ⟨cur, rest, rfl, ?_⟩
    have hrest : ∀ y ∈ rest, y ∈ st.frontier := (heappop_mem hpop).2
    by_cases hg : goal_test cur.state goal_state = true
    · simp [hg] at hstep
    · have hg' : goal_test cur.state goal_state = false := by simpa using hg
      by_cases hm : state_to_tuple cur.state ∈ st.explored
      · simp only [hg', Bool.false_eq_true, if_false, if_pos hm] at hstep
        injection hstep with h
        rw [← h]
        exact ⟨fun y hy => Or.inl (hrest y hy), Or.inl rfl⟩
      · simp only [hg', Bool.false_eq_true, if_false, if_neg hm] at hstep
        injection hstep with h
        rw [← h]
        refine ⟨?_, Or.inr rfl⟩
        intro y hy
        rcases foldl_cond_push_mem _ _ _ y hy with h' | h'
        · exact Or.inl (hrest y h')
        · exact Or.inr h'

/-- Reachability extends on the left along one step. -/
theorem searchReaches_head {goal_state : Config}
    {heuristic_func : Config → Config → Nat} {st0 st1 st : LoopState}
    (hstep : searchStep goal_state heuristic_func st0 = .next st1)
    (hr : SearchReaches goal_state heuristic_func st1 st) :
    SearchReaches goal_state heuristic_func st0 st := by
  induction hr with
  | refl => exact SearchReaches.tail (SearchReaches.refl _) hstep
  | tail _ hstep' ih => exact SearchReaches.tail ih hstep'

/-- A solved run of the bounded loop decomposes into reachability to a loop
state whose step solves. -/
theorem searchLoop_solved_reaches {goal_state : Config}
    {heuristic_func : Config → Config → Nat} :
    ∀ (fuel : Nat) (st0 : LoopState) (node : PuzzleNode) (e m : Nat),
      searchLoop goal_state heuristic_func fuel st0
        = SearchOutcome.solved node e m →
      ∃ st, SearchReaches goal_state heuristic_func st0 st ∧
        searchStep goal_state heuristic_func st
          = StepResult.solved node e m := by
  intro fuel
  induction fuel with
  | zero =>
    intro st0 node e m hrun
    simp [searchLoop] at hrun
  | succ fuel ih =>
    intro st0 node e m hrun
    rw [searchLoop] at hrun
    cases hstep : searchStep goal_state heuristic_func st0 with
    | solved n' e' m' =>
      rw [hstep] at hrun
      simp only [SearchOutcome.solved.injEq] at hrun
      obtain ⟨h1, h2, h3⟩ := hrun
      exact ⟨st0, SearchReaches.refl _, by rw [hstep, h1, h2, h3]⟩
    | failed e' m' =>
      rw [hstep] at hrun
      simp at hrun
    | next st1 =>
      rw [hstep] at hrun
      rcases ih st1 node e m hrun with ⟨st, hr, hs⟩
      exact ⟨st, searchReaches_head hstep hr, hs⟩

/-- A solving step pops its goal node from the frontier, and that node's
configuration passes the goal test. -/
theorem searchStep_solved_inv {goal_state : Config}
    {heuristic_func : Config → Config → Nat} {st : LoopState}
    {node : PuzzleNode} {e m : Nat}
    (hstep : searchStep goal_state heuristic_func st
      = StepResult.solved node e m) :
    node ∈ st.frontier ∧ node.state = goal_state := by
  unfold searchStep at hstep
  cases hpop : heappop nodeLT st.frontier with
  | none =>
    rw [hpop] at hstep
    simp at hstep
  | some pr =>
    obtain ⟨cur, rest⟩ := pr
    rw [hpop] at hstep
    by_cases hg : goal_test cur.state goal_state = true
    · simp only [hg, if_true, StepResult.solved.injEq] at hstep
      obtain ⟨h1, _, _⟩ := hstep
      constructor
      · rw [← h1]
        exact (heappop_mem hpop).1
      · rw [← h1]
        unfold goal_test at hg
        simpa using hg
    · have hg' : goal_test cur.state goal_state = false := by simpa using hg
      by_cases hm : state_to_tuple cur.state ∈ st.explored
      · simp only [hg', Bool.false_eq_true, if_false, if_pos hm] at hstep
        exact StepResult.noConfusion hstep
      · simp only [hg', Bool.false_eq_true, if_false, if_neg hm] at hstep
        exact StepResult.noConfusion hstep

/-- Structural induction over the parent chain of a search node. -/
theorem puzzleNode_parent_induction (motive : PuzzleNode → Prop)
    (h1 : ∀ s a g h, motive (.mk s none a g h))
    (h2 : ∀ s p a g h, motive p → motive (.mk s (some p) a g h)) :
    ∀ n, motive n
  | .mk s none a g h => h1 s a g h
  | .mk s (some p) a g h =>
    h2 s p a g h (puzzleNode_parent_induction motive h1 h2 p)

/-- The collection loop starts at the given node's state. -/
theorem pathAux_head (nd : PuzzleNode) : (pathAux nd).head? = some nd.state := by
  cases nd with
  | mk s p a g h =>
    cases p with
    | none => rfl
    | some q => rfl

/-- The collected chain of a node whose ancestry is a move path from
`initial`: it ends at `initial` and each link (read backward) is one
adjacent blank swap. -/
theorem pathAux_spec (initial : Config) :
    ∀ nd : PuzzleNode, PathFrom initial nd →
      (pathAux nd).getLast? = some initial ∧
      List.Chain' (fun a b => AdjacentSwap b a) (pathAux nd) := by
  intro nd
  induction nd using puzzleNode_parent_induction with
  | h1 s a g h =>
    intro hp
    unfold PathFrom at hp
    constructor
    · show (pathAux (.mk s none a g h)).getLast? = some initial
      rw [show pathAux (.mk s none a g h) = [s] from rfl, hp]
      rfl
    · rw [show pathAux (.mk s none a g h) = [s] from rfl]
      exact List.chain'_singleton s
  | h2 s p a g h ih =>
    intro hp
    unfold PathFrom at hp
    obtain ⟨hswap, hpf⟩ := hp
    rcases ih hpf with ⟨hlast, hchain⟩
    have hne : pathAux p ≠ [] := by
      intro hnil
      rw [hnil] at hlast
      simp at hlast
    constructor
    · rw [show pathAux (.mk s (some p) a g h) = s :: pathAux p from rfl]
      have hmem : initial ∈ (pathAux p).getLast? := by
        rw [Option.mem_def]
        exact hlast
      have hmem2 := List.mem_getLast?_cons (y := s) hmem
      rw [Option.mem_def] at hmem2
      exact hmem2
    · rw [show pathAux (.mk s (some p) a g h) = s :: pathAux p from rfl]
      rw [List.chain'_cons']
      refine ⟨?_, hchain⟩
      intro y hy
      rw [pathAux_head p] at hy
      simp at hy
      rw [← hy]
      exact hswap

/-- Every successor produced by `expand` extends its parent's move path by
one adjacent blank swap. -/
theorem expand_preserves_pathFrom (initial : Config) (cur : PuzzleNode)
    (goal_state : Config) (heuristic_func : Config → Config → Nat)
    (hp : PathFrom initial cur) :
    ∀ c ∈ expand cur goal_state heuristic_func, PathFrom initial c := by
  intro c hc
  cases hblank : find_blank cur.state with
  | none =>
    unfold expand at hc
    rw [hblank] at hc
    simp at hc
  | some rc =>
    obtain ⟨br, bc⟩ := rc
    have he : expand cur goal_state heuristic_func
        = (moves.filter (inBoundsMove cur.state br bc)).map
            (childNode cur goal_state heuristic_func br bc) := by
      unfold expand
      rw [hblank]
      simpa using foldl_append_if_eq (inBoundsMove cur.state br bc)
        (childNode cur goal_state heuristic_func br bc) moves []
    rw [he] at hc
    rcases List.mem_map.mp hc with ⟨m, hmf, rfl⟩
    rcases List.mem_filter.mp hmf with ⟨hmm, hmb⟩
    show AdjacentSwap cur.state _ ∧ PathFrom initial cur
    refine ⟨?_, hp⟩
    unfold AdjacentSwap isAdjacentSwap
    rw [hblank]
    rw [List.any_eq_true]
    exact ⟨m, hmm, by simp [hmb]⟩

/-- C7 support: path reconstruction on a node with a genuine move-path
ancestry yields the root-to-node sequence: first the initial configuration,
last the node's own, consecutive entries one adjacent blank swap apart. -/
theorem reconstruct_path_of_pathFrom (initial : Config) (nd : PuzzleNode)
    (hp : PathFrom initial nd) :
    (reconstruct_path nd).head? = some initial ∧
      (reconstruct_path nd).getLast? = some nd.state ∧
      List.Chain' AdjacentSwap (reconstruct_path nd) := by
  rcases pathAux_spec initial nd hp with ⟨hlast, hchain⟩
  refine ⟨?_, ?_, ?_⟩
  · rw [reconstruct_path, List.head?_reverse]
    exact hlast
  · rw [reconstruct_path, List.getLast?_reverse]
    exact pathAux_head nd
  · rw [reconstruct_path]
    rw [List.chain'_reverse]
    exact hchain

/-- All frontier nodes of any reachable loop state have genuine move-path
ancestry from the initial configuration. -/
theorem searchReaches_pathFrom (initial_state goal_state : Config)
    (h : Heur) (st : LoopState)
    (hr : SearchReaches goal_state (selectHeuristic h goal_state)
      (init_state initial_state goal_state h) st) :
    ∀ y ∈ st.frontier, PathFrom initial_state y := by
  induction hr with
  | refl =>
    intro y hy
    rw [init_state, heapify_singleton] at hy
    simp at hy
    rw [hy]
    show initial_state = initial_state
    rfl
  | tail hr' hstep ih =>
    intro y hy
    rcases searchStep_next_parts hstep with ⟨cur, rest, hpop, hfr, _⟩
    rcases hfr y hy with h' | h'
    · exact ih y h'
    · exact expand_preserves_pathFrom initial_state cur goal_state
        (selectHeuristic h goal_state) (ih cur (heappop_mem hpop).1) y h'

/-- C7: for every goal node a successful `general_search` run returns,
`reconstruct_path` yields the sequence in root-to-goal order: its first
element is the initial configuration, its last the goal configuration, and
each consecutive pair differs by exactly one swap of the blank with an
adjacent tile. -/
theorem reconstruct_path_correct (fuel : Nat)
    (initial_state goal_state : Config) (h : Heur) (node : PuzzleNode)
    (e m : Nat)
    (hrun : general_search fuel initial_state goal_state h
      = SearchOutcome.solved node e m) :
    (reconstruct_path node).head? = some initial_state ∧
      (reconstruct_path node).getLast? = some goal_state ∧
      List.Chain' AdjacentSwap (reconstruct_path node) := by
  rcases searchLoop_solved_reaches fuel _ node e m hrun with ⟨st, hr, hs⟩
  rcases searchStep_solved_inv hs with ⟨hmem, hgoal⟩
  have hpf : PathFrom initial_state node :=
    searchReaches_pathFrom initial_state goal_state h st hr node hmem
  rcases reconstruct_path_of_pathFrom initial_state node hpf with ⟨h1, h2, h3⟩
  refine ⟨h1, ?_, h3⟩
  rw [← hgoal]
  exact h2

/-- Witness for C7 at a concrete run: the depth-1 search from `d1c` solves,
and the reconstructed path runs from `d1c` to `goal3` through adjacent
swaps. -/
theorem reconstruct_path_correct_witness :
    (reconstruct_path (solvedNodeOf (general_search 20 d1c goal3 .zero))).head?
        = some d1c ∧
      (reconstruct_path (solvedNodeOf
        (general_search 20 d1c goal3 .zero))).getLast? = some goal3 ∧
      List.Chain' AdjacentSwap (reconstruct_path (solvedNodeOf
        (general_search 20 d1c goal3 .zero))) :=
  reconstruct_path_correct 20 d1c goal3 .zero
    (solvedNodeOf (general_search 20 d1c goal3 .zero))
    (solvedExpOf (general_search 20 d1c goal3 .zero))
    (solvedMaxOf (general_search 20 d1c goal3 .zero)) (by rfl)

/-! ## The permutation invariant -/

/-- Overwriting one entry trades its old value for the new one in the
multiset of entries (count form). -/
theorem count_set_list :
    ∀ (l : List Nat) (i : Nat), i < l.length → ∀ (v a : Nat),
      (l.set i v).count a + (if l.getD i 0 = a then 1 else 0)
        = l.count a + (if v = a then 1 else 0) := by
  intro l
  induction l with
  | nil =>
    intro i hi
    simp at hi
  | cons x xs ih =>
    intro i hi v a
    cases i with
    | zero =>
      simp only [List.set_cons_zero, List.getD_cons_zero, List.count_cons]
      by_cases hv : v = a <;> by_cases hx : x = a <;>
        simp [hv, hx] <;> omega
    | succ i =>
      simp only [List.set_cons_succ, List.getD_cons_succ, List.count_cons]
      have := ih i (by simpa using hi) v a
      rw [List.getD_eq_getElem?_getD] at this
      by_cases hx : x = a <;> simp [hx] <;> omega

/-- Row lengths are unchanged by a `setc` write. -/
theorem setc_row_length (s : Config) (r c v : Nat) (r' : Nat) :
    ((setc s r c v).getD r' []).length = (s.getD r' []).length := by
  unfold setc
  by_cases hr : r < s.length
  · by_cases hrr : r = r'
    · subst hrr
      rw [List.getD_eq_getElem _ _ (by simpa using hr)]
      simp [List.getElem_set_self, List.getD_eq_getElem _ _ hr]
    · by_cases hr' : r' < s.length
      · rw [List.getD_eq_getElem _ _ (by simpa using hr'),
          List.getD_eq_getElem _ _ hr']
        rw [List.getElem_set_ne hrr _]
      · rw [List.getD_eq_default _ _ (by simpa using Nat.le_of_not_lt hr'),
          List.getD_eq_default _ _ (Nat.le_of_not_lt hr')]
  · rw [List.set_eq_of_length_le (Nat.le_of_not_lt hr)]

/-- `setc` trades the overwritten entry for the new value in the multiset of
all grid entries (count form). -/
theorem count_flatten_setc :
    ∀ (s : Config) (r : Nat), r < s.length →
      ∀ (c : Nat), c < (s.getD r []).length → ∀ (v a : Nat),
      (setc s r c v).flatten.count a + (if idx s r c = a then 1 else 0)
        = s.flatten.count a + (if v = a then 1 else 0) := by
  intro s
  induction s with
  | nil =>
    intro r hr
    simp at hr
  | cons row rest ih =>
    intro r hr c hc v a
    cases r with
    | zero =>
      simp only [List.getD_cons_zero] at hc
      show ((row.set c v :: rest).flatten.count a) + _ = _
      simp only [List.flatten_cons, List.count_append, idx,
        List.getD_cons_zero]
      have := count_set_list row c hc v a
      omega
    | succ r =>
      simp only [List.getD_cons_succ] at hc
      show ((row :: setc rest r c v).flatten.count a) + _ = _
      simp only [List.flatten_cons, List.count_append, idx,
        List.getD_cons_succ]
      have := ih r (by simpa using hr) c hc v a
      unfold idx at this
      omega

/-- Generic `getD` after an out-of-place `set`. -/
theorem getD_set_ne {α : Type _} (l : List α) (i j : Nat) (v d : α)
    (h : i ≠ j) : (l.set i v).getD j d = l.getD j d := by
  by_cases hj : j < l.length
  · rw [List.getD_eq_getElem _ _ (by simpa using hj),
      List.getD_eq_getElem _ _ hj]
    exact List.getElem_set_ne h _
  · rw [List.getD_eq_default _ _ (by simpa using Nat.le_of_not_lt hj),
      List.getD_eq_default _ _ (Nat.le_of_not_lt hj)]

/-- `getD` after an in-bounds same-place `set`. -/
theorem getD_set_self_of_lt {α : Type _} (l : List α) (i : Nat) (v d : α)
    (h : i < l.length) : (l.set i v).getD i d = v := by
  rw [List.getD_eq_getElem _ _ (by simpa using h)]
  simp [List.getElem_set_self]

/-- Reading a cell `setc` did not write. -/
theorem idx_setc_ne (s : Config) (r c v r' c' : Nat)
    (h : r ≠ r' ∨ c ≠ c') : idx (setc s r c v) r' c' = idx s r' c' := by
  unfold idx setc
  by_cases hrr : r = r'
  · rcases h with h | h
    · exact absurd hrr h
    · subst hrr
      by_cases hr : r < s.length
      · rw [getD_set_self_of_lt s r _ [] hr]
        exact getD_set_ne _ c c' v 0 h
      · rw [List.set_eq_of_length_le (Nat.le_of_not_lt hr)]
  · rw [getD_set_ne s r r' _ [] hrr]

/-- Reading the cell `setc` wrote. -/
theorem idx_setc_eq (s : Config) (r c v : Nat) (hr : r < s.length)
    (hc : c < (s.getD r []).length) : idx (setc s r c v) r c = v := by
  unfold idx setc
  rw [getD_set_self_of_lt s r _ [] hr]
  exact getD_set_self_of_lt _ c v 0 hc

/-- Swapping two distinct in-bounds cells leaves every value's count in the
grid unchanged. -/
theorem count_flatten_swapCells (s : Config) (r1 c1 r2 c2 : Nat)
    (h1r : r1 < s.length) (h1c : c1 < (s.getD r1 []).length)
    (h2r : r2 < s.length) (h2c : c2 < (s.getD r2 []).length)
    (hne : r1 ≠ r2 ∨ c1 ≠ c2) (a : Nat) :
    (swapCells s r1 c1 r2 c2).flatten.count a = s.flatten.count a := by
  show (setc (setc s r1 c1 (idx s r2 c2)) r2 c2 (idx s r1 c1)).flatten.count a
    = s.flatten.count a
  have h2r' : r2 < (setc s r1 c1 (idx s r2 c2)).length := by
    unfold setc
    rw [List.length_set]
    exact h2r
  have h2c' : c2 < ((setc s r1 c1 (idx s r2 c2)).getD r2 []).length := by
    rw [setc_row_length]
    exact h2c
  have eq1 := count_flatten_setc _ r2 h2r' c2 h2c' (idx s r1 c1) a
  have eq2 := count_flatten_setc s r1 h1r c1 h1c (idx s r2 c2) a
  have hidx : idx (setc s r1 c1 (idx s r2 c2)) r2 c2 = idx s r2 c2 :=
    idx_setc_ne s r1 c1 _ r2 c2 hne
  rw [hidx] at eq1
  omega

/-- Each row of a `setc` result is a row of the original or the modified row,
so row lengths are preserved. -/
theorem setc_rows_length (s : Config) (r c v : Nat) (n : Nat)
    (hrows : ∀ row ∈ s, row.length = n) :
    ∀ row ∈ setc s r c v, row.length = n := by
  intro row hrow
  by_cases hr : r < s.length
  · rcases mem_of_mem_set hrow with h | h
    · exact hrows row h
    · rw [h, List.length_set]
      apply hrows
      rw [List.getD_eq_getElem _ _ hr]
      exact List.getElem_mem hr
  · unfold setc at hrow
    rw [List.set_eq_of_length_le (Nat.le_of_not_lt hr)] at hrow
    exact hrows row hrow

/-- Swapping two distinct in-bounds cells preserves the permutation
invariant. -/
theorem swapCells_valid (n : Nat) (s : Config) (r1 c1 r2 c2 : Nat)
    (hv : ValidConfig n s) (h1r : r1 < n) (h1c : c1 < n) (h2r : r2 < n)
    (h2c : c2 < n) (hne : r1 ≠ r2 ∨ c1 ≠ c2) :
    ValidConfig n (swapCells s r1 c1 r2 c2) := by
  obtain ⟨hlen, hrows, hperm⟩ := hv
  have hrow1 : (s.getD r1 []).length = n := by
    rw [List.getD_eq_getElem _ _ (by omega)]
    exact hrows _ (List.getElem_mem (by omega))
  have hrow2 : (s.getD r2 []).length = n := by
    rw [List.getD_eq_getElem _ _ (by omega)]
    exact hrows _ (List.getElem_mem (by omega))
  refine ⟨?_, ?_, ?_⟩
  · show (setc (setc s r1 c1 (idx s r2 c2)) r2 c2 (idx s r1 c1)).length = n
    unfold setc
    rw [List.length_set, List.length_set]
    exact hlen
  · show ∀ row ∈ setc (setc s r1 c1 (idx s r2 c2)) r2 c2 (idx s r1 c1),
      row.length = n
    exact setc_rows_length _ _ _ _ n (setc_rows_length _ _ _ _ n hrows)
  · apply List.perm_iff_count.mpr
    intro a
    rw [count_flatten_swapCells s r1 c1 r2 c2 (by omega) (by omega)
      (by omega) (by omega) hne a]
    exact List.perm_iff_count.mp hperm a

/-- `find_blank` returns an in-bounds cell holding the blank. -/
theorem find_blank_bounds {s : Config} {r c : Nat}
    (h : find_blank s = some (r, c)) :
    r < s.length ∧ c < s.length ∧ idx s r c = 0 := by
  unfold find_blank at h
  rcases List.exists_of_findSome?_eq_some h with ⟨r', hr', hinner⟩
  rcases List.exists_of_findSome?_eq_some hinner with ⟨c', hc', hif⟩
  by_cases hz : idx s r' c' = 0
  · rw [if_pos hz] at hif
    have := Option.some.inj hif
    have hr'' : r' = r := congrArg Prod.fst this
    have hc'' : c' = c := congrArg Prod.snd this
    rw [← hr'', ← hc'']
    exact ⟨List.mem_range.mp hr', List.mem_range.mp hc', hz⟩
  · rw [if_neg hz] at hif
    exact absurd hif (by simp)

/-- Every successor `expand` produces from a valid configuration is valid:
one move only swaps the blank with an adjacent tile. -/
theorem expand_preserves_valid (n : Nat) (cur : PuzzleNode)
    (goal_state : Config) (heuristic_func : Config → Config → Nat)
    (hv : ValidConfig n cur.state) :
    ∀ c ∈ expand cur goal_state heuristic_func, ValidConfig n c.state := by
  intro c hc
  cases hblank : find_blank cur.state with
  | none =>
    unfold expand at hc
    rw [hblank] at hc
    simp at hc
  | some rc =>
    obtain ⟨br, bc⟩ := rc
    have he : expand cur goal_state heuristic_func
        = (moves.filter (inBoundsMove cur.state br bc)).map
            (childNode cur goal_state heuristic_func br bc) := by
      unfold expand
      rw [hblank]
      simpa using foldl_append_if_eq (inBoundsMove cur.state br bc)
        (childNode cur goal_state heuristic_func br bc) moves []
    rw [he] at hc
    rcases List.mem_map.mp hc with ⟨m, hmf, rfl⟩
    rcases List.mem_filter.mp hmf with ⟨hmm, hmb⟩
    rcases find_blank_bounds hblank with ⟨hbr, hbc, _⟩
    have hlen : cur.state.length = n := hv.1
    unfold inBoundsMove at hmb
    simp only [decide_eq_true_eq] at hmb
    obtain ⟨hb1, hb2, hb3, hb4⟩ := by exact hmb
    show ValidConfig n (swapCells cur.state br bc
      ((br : Int) + m.1).toNat ((bc : Int) + m.2.1).toNat)
    apply swapCells_valid n cur.state _ _ _ _ hv (by omega) (by omega)
      (by omega) (by omega)
    have hmoves : m = ((-1 : Int), (0 : Int), "Up") ∨
        m = ((1 : Int), (0 : Int), "Down") ∨
        m = ((0 : Int), (-1 : Int), "Left") ∨
        m = ((0 : Int), (1 : Int), "Right") := by
      simpa [moves] using hmm
    rcases hmoves with hm | hm | hm | hm <;> subst hm <;>
      simp only [] at hb1 hb2 hb3 hb4 ⊢ <;> omega

/-- C9: started from a valid initial configuration, every configuration the
search ever places in the frontier or in the explored set contains each value
in `{0, …, N²−1}` exactly once — the successor generator preserves the
permutation invariant because a move only swaps two cells. -/
theorem search_preserves_permutation_invariant (n : Nat)
    (initial_state goal_state : Config) (h : Heur) (st : LoopState)
    (hv : ValidConfig n initial_state)
    (hr : SearchReaches goal_state (selectHeuristic h goal_state)
      (init_state initial_state goal_state h) st) :
    (∀ y ∈ st.frontier, ValidConfig n y.state) ∧
      (∀ s ∈ st.explored, ValidConfig n s) := by
  induction hr with
  | refl =>
    constructor
    · intro y hy
      rw [init_state, heapify_singleton] at hy
      simp at hy
      rw [hy]
      exact hv
    · intro s hs
      simp [init_state] at hs
  | tail hr' hstep ih =>
    rcases searchStep_next_parts hstep with ⟨cur, rest, hpop, hfr, hex⟩
    have hcur : ValidConfig n cur.state := ih.1 cur (heappop_mem hpop).1
    constructor
    · intro y hy
      rcases hfr y hy with h' | h'
      · exact ih.1 y h'
      · exact expand_preserves_valid n cur goal_state
          (selectHeuristic h goal_state) hcur y h'
    · intro s hs
      rcases hex with h' | h'
      · rw [h'] at hs
        exact ih.2 s hs
      · rw [h'] at hs
        rcases List.mem_cons.mp hs with h'' | h''
        · rw [h'']
          exact hcur
        · exact ih.2 s h''

/-- Witness for C9 at concrete inputs: at the start of the search from the
valid configuration `d1c`, the frontier's one node carries a valid
configuration. -/
theorem search_preserves_permutation_invariant_witness :
    ValidConfig 3 (start_node d1c goal3 .zero).state :=
  (search_preserves_permutation_invariant 3 d1c goal3 .zero
      (init_state d1c goal3 .zero) (by decide) (SearchReaches.refl _)).1
    (start_node d1c goal3 .zero)
    (by rw [init_state, heapify_singleton]; exact List.mem_singleton_self _)

/-! ## The precomputed goal-position dictionary -/

/-- A binding produced by the inner (one-row) loop of `precompute_goal_pos`
comes from a cell of that row or from the incoming map. -/
theorem precompute_inner_some (goal_state : Config) (r : Nat) :
    ∀ (l : List Nat) (m : GoalPos) (v : Nat) (rc : Nat × Nat),
      (l.foldl (fun m c => fun w =>
        if w = idx goal_state r c then some (r, c) else m w) m) v = some rc →
      (∃ c ∈ l, idx goal_state r c = v ∧ rc = (r, c)) ∨ m v = some rc := by
  intro l
  induction l with
  | nil =>
    intro m v rc hm
    exact Or.inr hm
  | cons c cs ih =>
    intro m v rc hm
    rw [List.foldl_cons] at hm
    rcases ih _ v rc hm with h | h
    · rcases h with ⟨c', hc', h1, h2⟩
      exact Or.inl ⟨c', List.mem_cons_of_mem _ hc', h1, h2⟩
    · by_cases hv : v = idx goal_state r c
      · rw [if_pos hv] at h
        refine Or.inl ⟨c, List.mem_cons_self _ _, hv.symm, ?_⟩
        exact (Option.some.inj h).symm
      · rw [if_neg hv] at h
        exact Or.inr h

/-- The inner loop never erases a binding. -/
theorem precompute_inner_isSome (goal_state : Config) (r : Nat) :
    ∀ (l : List Nat) (m : GoalPos) (v : Nat), (m v).isSome = true →
      ((l.foldl (fun m c => fun w =>
        if w = idx goal_state r c then some (r, c) else m w) m) v).isSome
        = true := by
  intro l
  induction l with
  | nil => intro m v hm; exact hm
  | cons c cs ih =>
    intro m v hm
    rw [List.foldl_cons]
    apply ih
    by_cases hv : v = idx goal_state r c
    · rw [if_pos hv]
      rfl
    · rw [if_neg hv]
      exact hm

/-- After the inner loop passes a column, the tile at that column is bound. -/
theorem precompute_inner_hit (goal_state : Config) (r : Nat) :
    ∀ (l : List Nat) (m : GoalPos) (gc : Nat), gc ∈ l →
      ((l.foldl (fun m c => fun w =>
        if w = idx goal_state r c then some (r, c) else m w) m)
          (idx goal_state r gc)).isSome = true := by
  intro l
  induction l with
  | nil => intro m gc hgc; simp at hgc
  | cons c cs ih =>
    intro m gc hgc
    rw [List.foldl_cons]
    rcases List.mem_cons.mp hgc with h | h
    · apply precompute_inner_isSome
      rw [h]
      rw [if_pos rfl]
      rfl
    · exact ih _ gc h

/-- A binding of the precomputed dictionary is a cell of the goal grid
holding the looked-up value. -/
theorem precompute_some_inv (goal_state : Config) (v : Nat) (rc : Nat × Nat)
    (hm : precompute_goal_pos goal_state v = some rc) :
    rc.1 < goal_state.length ∧ rc.2 < goal_state.length ∧
      idx goal_state rc.1 rc.2 = v := by
  unfold precompute_goal_pos at hm
  have main : ∀ (l : List Nat), (∀ r ∈ l, r < goal_state.length) →
      ∀ (m : GoalPos),
      (∀ w rc', m w = some rc' → rc'.1 < goal_state.length ∧
        rc'.2 < goal_state.length ∧ idx goal_state rc'.1 rc'.2 = w) →
      ∀ w rc',
      (l.foldl (fun m r => (List.range goal_state.length).foldl
        (fun m c => fun w =>
          if w = idx goal_state r c then some (r, c) else m w) m) m) w
        = some rc' →
      rc'.1 < goal_state.length ∧ rc'.2 < goal_state.length ∧
        idx goal_state rc'.1 rc'.2 = w := by
    intro l
    induction l with
    | nil =>
      intro _ m hm0 w rc' h
      exact hm0 w rc' h
    | cons r rs ih =>
      intro hl m hm0 w rc' h
      rw [List.foldl_cons] at h
      apply ih (fun x hx => hl x (List.mem_cons_of_mem _ hx)) _ ?_ w rc' h
      intro w' rc'' h'
      rcases precompute_inner_some goal_state r _ m w' rc'' h' with hcase | hcase
      · rcases hcase with ⟨c, hcmem, h1, h2⟩
        rw [h2]
        exact ⟨hl r (List.mem_cons_self _ _), List.mem_range.mp hcmem, h1⟩
      · exact hm0 w' rc'' hcase
  apply main (List.range goal_state.length)
    (fun r hr => List.mem_range.mp hr) _ ?_ v rc hm
  intro w rc' h'
  simp at h'

/-- Every tile value occurring in the goal grid is bound by the precomputed
dictionary. -/
theorem precompute_isSome (goal_state : Config) (gr gc : Nat)
    (hgr : gr < goal_state.length) (hgc : gc < goal_state.length) :
    (precompute_goal_pos goal_state (idx goal_state gr gc)).isSome = true := by
  unfold precompute_goal_pos
  have outer_pres : ∀ (l : List Nat) (m : GoalPos) (v : Nat),
      (m v).isSome = true →
      ((l.foldl (fun m r => (List.range goal_state.length).foldl
        (fun m c => fun w =>
          if w = idx goal_state r c then some (r, c) else m w) m) m) v).isSome
        = true := by
    intro l
    induction l with
    | nil => intro m v hm; exact hm
    | cons r rs ih =>
      intro m v hm
      rw [List.foldl_cons]
      exact ih _ v (precompute_inner_isSome goal_state r _ m v hm)
  have outer_hit : ∀ (l : List Nat) (m : GoalPos), gr ∈ l →
      ((l.foldl (fun m r => (List.range goal_state.length).foldl
        (fun m c => fun w =>
          if w = idx goal_state r c then some (r, c) else m w) m) m)
        (idx goal_state gr gc)).isSome = true := by
    intro l
    induction l with
    | nil => intro m hm; simp at hm
    | cons r rs ih =>
      intro m hm
      rw [List.foldl_cons]
      rcases List.mem_cons.mp hm with h | h
      · apply outer_pres
        rw [← h]
        exact precompute_inner_hit goal_state gr _ m gc
          (List.mem_range.mpr hgc)
      · exact ih _ h
  exact outer_hit (List.range goal_state.length) _ (List.mem_range.mpr hgr)

/-- Reading past the left part of an append. -/
theorem lget_append_right_add {α : Type _} [Inhabited α] (l1 l2 : List α)
    (k : Nat) : lget (l1 ++ l2) (l1.length + k) = lget l2 k := by
  unfold lget
  by_cases hk : k < l2.length
  · rw [List.getD_eq_getElem _ _ (by simp; omega),
      List.getD_eq_getElem _ _ hk]
    rw [List.getElem_append_right (by omega)]
    congr 1
    omega
  · rw [List.getD_eq_default _ _ (by simp; omega),
      List.getD_eq_default _ _ (by omega)]

/-- Row-major flattening: cell `(r, c)` of a grid with row length `n` is
entry `r * n + c` of the flattened list. -/
theorem lget_flatten_idx :
    ∀ (s : Config) (n : Nat), (∀ row ∈ s, row.length = n) →
      ∀ (r c : Nat), r < s.length → c < n →
      lget s.flatten (r * n + c) = idx s r c := by
  intro s
  induction s with
  | nil =>
    intro n _ r c hr
    simp at hr
  | cons row rest ih =>
    intro n hrows r c hr hc
    have hrowlen : row.length = n := hrows row (List.mem_cons_self _ _)
    cases r with
    | zero =>
      show lget ((row :: rest).flatten) (0 * n + c) = idx (row :: rest) 0 c
      rw [List.flatten_cons]
      have : 0 * n + c = c := by omega
      rw [this]
      rw [lget_append_left _ _ c (by omega)]
      show row.getD c default = idx (row :: rest) 0 c
      rfl
    | succ r =>
      rw [List.flatten_cons]
      have : (r + 1) * n + c = row.length + (r * n + c) := by
        rw [hrowlen]
        ring
      rw [this, lget_append_right_add]
      rw [ih n (fun x hx => hrows x (List.mem_cons_of_mem _ hx)) r c
        (by simpa using hr) hc]
      rfl

/-- A rectangular grid flattens to `length * n` entries. -/
theorem flatten_length_of_rows :
    ∀ (s : Config) (n : Nat), (∀ row ∈ s, row.length = n) →
      s.flatten.length = s.length * n := by
  intro s
  induction s with
  | nil => intro n _; simp
  | cons row rest ih =>
    intro n hrows
    rw [List.flatten_cons, List.length_append,
      ih n (fun x hx => hrows x (List.mem_cons_of_mem _ hx)),
      hrows row (List.mem_cons_self _ _)]
    simp
    ring

/-- On a square, duplicate-free goal grid, a tile value determines its cell. -/
theorem goal_pos_unique (n : Nat) (goal_state : Config)
    (hlen : goal_state.length = n)
    (hrows : ∀ row ∈ goal_state, row.length = n)
    (hnodup : goal_state.flatten.Nodup)
    (r1 c1 r2 c2 : Nat) (h1r : r1 < n) (h1c : c1 < n) (h2r : r2 < n)
    (h2c : c2 < n) (he : idx goal_state r1 c1 = idx goal_state r2 c2) :
    r1 = r2 ∧ c1 = c2 := by
  have hfl : goal_state.flatten.length = n * n := by
    rw [flatten_length_of_rows goal_state n hrows, hlen]
  have hi1 : r1 * n + c1 < goal_state.flatten.length := by
    rw [hfl]
    calc r1 * n + c1 < r1 * n + n := by omega
    _ = (r1 + 1) * n := by ring
    _ ≤ n * n := Nat.mul_le_mul_right n (by omega)
  have hi2 : r2 * n + c2 < goal_state.flatten.length := by
    rw [hfl]
    calc r2 * n + c2 < r2 * n + n := by omega
    _ = (r2 + 1) * n := by ring
    _ ≤ n * n := Nat.mul_le_mul_right n (by omega)
  have e1 := lget_flatten_idx goal_state n hrows r1 c1 (by omega) h1c
  have e2 := lget_flatten_idx goal_state n hrows r2 c2 (by omega) h2c
  have he' : goal_state.flatten.get ⟨r1 * n + c1, hi1⟩
      = goal_state.flatten.get ⟨r2 * n + c2, hi2⟩ := by
    have hx1 : lget goal_state.flatten (r1 * n + c1)
        = goal_state.flatten.get ⟨r1 * n + c1, hi1⟩ := by
      unfold lget
      rw [List.get_eq_getElem]
      exact List.getD_eq_getElem _ _ hi1
    have hx2 : lget goal_state.flatten (r2 * n + c2)
        = goal_state.flatten.get ⟨r2 * n + c2, hi2⟩ := by
      unfold lget
      rw [List.get_eq_getElem]
      exact List.getD_eq_getElem _ _ hi2
    rw [← hx1, ← hx2, e1, e2]
    exact he
  have h12 : r1 * n + c1 = r2 * n + c2 :=
    congrArg Fin.val ((List.Nodup.get_inj_iff hnodup).mp he')
  have hn : 0 < n := by omega
  have d1 : (c1 + r1 * n) / n = r1 := by
    rw [Nat.add_mul_div_right _ _ hn, Nat.div_eq_of_lt h1c]
    omega
  have d2 : (c2 + r2 * n) / n = r2 := by
    rw [Nat.add_mul_div_right _ _ hn, Nat.div_eq_of_lt h2c]
    omega
  have hr12 : r1 = r2 := by
    rw [← d1, ← d2]
    congr 1
    omega
  subst hr12
  exact ⟨rfl, by omega⟩

/-- `tileGoalPos` returns an occurrence whenever the value occurs. -/
theorem tileGoalPos_occurrence (goal_state : Config) (v gr gc : Nat)
    (hgr : gr < goal_state.length) (hgc : gc < goal_state.length)
    (hv : idx goal_state gr gc = v) :
    (tileGoalPos goal_state v).1 < goal_state.length ∧
      (tileGoalPos goal_state v).2 < goal_state.length ∧
      idx goal_state (tileGoalPos goal_state v).1
        (tileGoalPos goal_state v).2 = v := by
  unfold tileGoalPos
  cases hfind : (List.range goal_state.length).findSome? (fun r =>
      (List.range goal_state.length).findSome? (fun c =>
        if idx goal_state r c = v then some (r, c) else none)) with
  | none =>
    exfalso
    have hall := List.findSome?_eq_none_iff.mp hfind gr
      (List.mem_range.mpr hgr)
    have hall2 := List.findSome?_eq_none_iff.mp hall gc
      (List.mem_range.mpr hgc)
    rw [if_pos hv] at hall2
    exact Option.noConfusion hall2
  | some rc =>
    rcases List.exists_of_findSome?_eq_some hfind with ⟨r', hr', hinner⟩
    rcases List.exists_of_findSome?_eq_some hinner with ⟨c', hc', hif⟩
    by_cases hz : idx goal_state r' c' = v
    · rw [if_pos hz] at hif
      have h1 := Option.some.inj hif
      rw [← h1]
      exact ⟨List.mem_range.mp hr', List.mem_range.mp hc', hz⟩
    · rw [if_neg hz] at hif
      exact absurd hif (by simp)

/-- On a duplicate-free square goal, the last-write-wins dictionary agrees
with the specification's goal position for every occurring tile value. -/
theorem precompute_eq_tileGoalPos (n : Nat) (goal_state : Config)
    (hlen : goal_state.length = n)
    (hrows : ∀ row ∈ goal_state, row.length = n)
    (hnodup : goal_state.flatten.Nodup) (v gr gc : Nat) (hgr : gr < n)
    (hgc : gc < n) (hv : idx goal_state gr gc = v) :
    precompute_goal_pos goal_state v = some (tileGoalPos goal_state v) := by
  have hsome : (precompute_goal_pos goal_state v).isSome = true := by
    rw [← hv]
    exact precompute_isSome goal_state gr gc (by omega) (by omega)
  rcases Option.isSome_iff_exists.mp hsome with ⟨rc, hrc⟩
  rcases precompute_some_inv goal_state v rc hrc with ⟨hb1, hb2, hb3⟩
  rcases tileGoalPos_occurrence goal_state v gr gc (by omega) (by omega) hv
    with ⟨ht1, ht2, ht3⟩
  have huniq := goal_pos_unique n goal_state hlen hrows hnodup
    rc.1 rc.2 (tileGoalPos goal_state v).1 (tileGoalPos goal_state v).2
    (by omega) (by omega) (by omega) (by omega) (by rw [hb3, ht3])
  have : rc = tileGoalPos goal_state v := by
    rcases huniq with ⟨e1, e2⟩
    exact Prod.ext e1 e2
  rw [hrc, this]

/-- Accumulating fold of additions is the starting value plus the mapped
sum. -/
theorem foldl_add_map {A : Type _} :
    ∀ (l : List A) (g : A → Nat) (acc : Nat),
      l.foldl (fun a x => a + g x) acc = acc + (l.map g).sum := by
  intro l
  induction l with
  | nil => intro g acc; simp
  | cons x xs ih =>
    intro g acc
    rw [List.foldl_cons, ih]
    simp
    omega

/-- Mapped sums over `List.range` are `Finset.range` sums. -/
theorem list_range_map_sum (f : Nat → Nat) :
    ∀ (n : Nat), ((List.range n).map f).sum = ∑ i ∈ Finset.range n, f i := by
  intro n
  induction n with
  | zero => simp
  | succ n ih =>
    rw [List.range_succ, Finset.sum_range_succ, List.map_append, List.sum_append,
      ih]
    simp

/-- The Manhattan heuristic as a double sum of per-cell contributions. -/
theorem manhattan_eq_sum (gp : GoalPos) (state goal_state : Config) :
    manhattan_distance_heuristic gp state goal_state
      = ∑ r ∈ Finset.range goal_state.length,
          ∑ c ∈ Finset.range goal_state.length,
          (if idx state r c ≠ 0 then
            (match gp (idx state r c) with
             | some (goal_r, goal_c) => natDist r goal_r + natDist c goal_c
             | none => 0)
          else 0) := by
  unfold manhattan_distance_heuristic
  have hbody : ∀ (r a c : Nat),
      (if idx state r c ≠ 0 then
        match gp (idx state r c) with
        | some (goal_r, goal_c) => a + (natDist r goal_r + natDist c goal_c)
        | none => a
      else a)
      = a + (if idx state r c ≠ 0 then
          (match gp (idx state r c) with
           | some (goal_r, goal_c) => natDist r goal_r + natDist c goal_c
           | none => 0)
        else 0) := by
    intro r a c
    by_cases h0 : idx state r c ≠ 0
    · rw [if_pos h0, if_pos h0]
      cases gp (idx state r c) with
      | none => simp
      | some rc => rfl
    · rw [if_neg h0, if_neg h0]
      simp
  have hinner : ∀ (r acc : Nat),
      (List.range goal_state.length).foldl (fun acc c =>
        let tile := idx state r c
        if tile ≠ 0 then
          match gp tile with
          | some (goal_r, goal_c) => acc + (natDist r goal_r + natDist c goal_c)
          | none => acc
        else acc) acc
      = acc + ∑ c ∈ Finset.range goal_state.length,
          (if idx state r c ≠ 0 then
            (match gp (idx state r c) with
             | some (goal_r, goal_c) => natDist r goal_r + natDist c goal_c
             | none => 0)
          else 0) := by
    intro r acc
    rw [List.foldl_ext _ (fun acc c => acc +
        (if idx state r c ≠ 0 then
          (match gp (idx state r c) with
           | some (goal_r, goal_c) => natDist r goal_r + natDist c goal_c
           | none => 0)
        else 0)) acc ?_]
    · rw [foldl_add_map, list_range_map_sum]
    · intro a c _
      exact hbody r a c
  rw [List.foldl_ext _ (fun acc r => acc +
      ∑ c ∈ Finset.range goal_state.length,
        (if idx state r c ≠ 0 then
          (match gp (idx state r c) with
           | some (goal_r, goal_c) => natDist r goal_r + natDist c goal_c
           | none => 0)
        else 0)) 0 ?_]
  · rw [foldl_add_map, list_range_map_sum]
    simp
  · intro a r _
    show (List.range goal_state.length).foldl _ a = _
    exact hinner r a

/-- The two per-cell contribution shapes agree via the dictionary/spec
agreement. -/
theorem manhattan_sum_eq_spec (n : Nat) (goal_state state : Config)
    (hlen : goal_state.length = n)
    (hrows : ∀ row ∈ goal_state, row.length = n)
    (hnodup : goal_state.flatten.Nodup)
    (hcover : ∀ r, r < n → ∀ c, c < n → idx state r c ≠ 0 →
      ∃ gr ∈ Finset.range n, ∃ gc ∈ Finset.range n,
        idx goal_state gr gc = idx state r c) :
    manhattan_distance_heuristic (precompute_goal_pos goal_state) state
        goal_state
      = manhattanSpecSum n goal_state state := by
  rw [manhattan_eq_sum, hlen]
  unfold manhattanSpecSum
  apply Finset.sum_congr rfl
  intro r hr
  apply Finset.sum_congr rfl
  intro c hc
  by_cases h0 : idx state r c ≠ 0
  · rw [if_pos h0, if_pos h0]
    rcases hcover r (Finset.mem_range.mp hr) c (Finset.mem_range.mp hc) h0
      with ⟨gr, hgr, gc, hgc, hv⟩
    rw [precompute_eq_tileGoalPos n goal_state hlen hrows hnodup
      (idx state r c) gr gc (Finset.mem_range.mp hgr)
      (Finset.mem_range.mp hgc) hv]
  · rw [if_neg h0, if_neg h0]

/-- C6: within one search run, the goal-position mapping is the one built
once by `precompute_goal_pos` at search start — `general_search` evaluates
the Manhattan heuristic with that single mapping for every node — and with
it `manhattan_distance_heuristic` returns, for every non-blank tile, the sum
of absolute row and column distances between the tile's position and its goal
position. -/
theorem manhattan_built_once_computes_spec_sum (n : Nat)
    (goal_state state : Config) (hlen : goal_state.length = n)
    (hrows : ∀ row ∈ goal_state, row.length = n)
    (hnodup : goal_state.flatten.Nodup)
    (hcover : ∀ r, r < n → ∀ c, c < n → idx state r c ≠ 0 →
      ∃ gr ∈ Finset.range n, ∃ gc ∈ Finset.range n,
        idx goal_state gr gc = idx state r c) :
    selectHeuristic .manhattan goal_state
        = manhattan_distance_heuristic (precompute_goal_pos goal_state) ∧
      manhattan_distance_heuristic (precompute_goal_pos goal_state) state
          goal_state
        = manhattanSpecSum n goal_state state :=
  ⟨rfl, manhattan_sum_eq_spec n goal_state state hlen hrows hnodup hcover⟩

/-- Witness for C6 at concrete inputs: for the standard goal and the state
`d2c`, the precomputed-dictionary Manhattan heuristic equals the
specification sum (value 2). -/
theorem manhattan_built_once_computes_spec_sum_witness :
    (selectHeuristic .manhattan goal3
        = manhattan_distance_heuristic (precompute_goal_pos goal3) ∧
      manhattan_distance_heuristic (precompute_goal_pos goal3) d2c goal3
        = manhattanSpecSum 3 goal3 d2c) ∧
      manhattan_distance_heuristic (precompute_goal_pos goal3) d2c goal3 = 2 :=
  ⟨manhattan_built_once_computes_spec_sum 3 goal3 d2c (by decide)
      (by decide) (by decide)
      (by decide), by decide⟩

/-! ## Move paths -/

/-- Paths extend on the right. -/
theorem movePath_snoc {a b c : Config} {k : Nat} (hp : MovePath a b k)
    (hs : AdjacentSwap b c) : MovePath a c (k + 1) := by
  induction hp with
  | refl s => exact MovePath.step hs (MovePath.refl c)
  | step h1 _ ih => exact MovePath.step h1 (ih hs)

/-- A path of length zero is trivial. -/
theorem movePath_zero {a b : Config} (hp : MovePath a b 0) : a = b := by
  cases hp
  rfl

/-- Paths decompose on the right. -/
theorem movePath_snoc_inv {a b : Config} :
    ∀ {k : Nat}, MovePath a b (k + 1) →
      ∃ w, MovePath a w k ∧ AdjacentSwap w b := by
  intro k
  induction k generalizing a with
  | zero =>
    intro hp
    cases hp with
    | step h1 h2 =>
      have := movePath_zero h2
      subst this
      exact ⟨a, MovePath.refl a, h1⟩
  | succ k ih =>
    intro hp
    cases hp with
    | step h1 h2 =>
      rcases ih h2 with ⟨w, hw1, hw2⟩
      exact ⟨w, MovePath.step h1 hw1, hw2⟩

/-- One adjacent blank swap preserves the permutation invariant. -/
theorem adjacentSwap_valid {n : Nat} {s t : Config} (hv : ValidConfig n s)
    (hs : AdjacentSwap s t) : ValidConfig n t := by
  unfold AdjacentSwap isAdjacentSwap at hs
  cases hblank : find_blank s with
  | none => rw [hblank] at hs; simp at hs
  | some rc =>
    obtain ⟨br, bc⟩ := rc
    rw [hblank] at hs
    rcases List.any_eq_true.mp hs with ⟨m, hmm, hcond⟩
    simp only [decide_eq_true_eq] at hcond
    obtain ⟨hmb, hteq⟩ := hcond
    rcases find_blank_bounds hblank with ⟨hbr, hbc, _⟩
    have hlen : s.length = n := hv.1
    unfold inBoundsMove at hmb
    simp only [decide_eq_true_eq] at hmb
    obtain ⟨hb1, hb2, hb3, hb4⟩ := by exact hmb
    rw [hteq]
    apply swapCells_valid n s _ _ _ _ hv (by omega) (by omega)
      (by omega) (by omega)
    have hmoves : m = ((-1 : Int), (0 : Int), "Up") ∨
        m = ((1 : Int), (0 : Int), "Down") ∨
        m = ((0 : Int), (-1 : Int), "Left") ∨
        m = ((0 : Int), (1 : Int), "Right") := by
      simpa [moves] using hmm
    rcases hmoves with hm | hm | hm | hm <;> subst hm <;>
      simp only [] at hb1 hb2 hb3 hb4 ⊢ <;> omega

/-- Validity propagates along a path. -/
theorem movePath_valid {n : Nat} {a b : Config} {k : Nat}
    (hp : MovePath a b k) (hv : ValidConfig n a) : ValidConfig n b := by
  induction hp with
  | refl s => exact hv
  | step h1 _ ih => exact ih (adjacentSwap_valid hv h1)

/-- A consistent heuristic changes by at most one per move, hence by at most
the length of any path. -/
theorem hval_chain {n : Nat} (hval : Config → Nat)
    (hcons : ∀ s t, ValidConfig n s → AdjacentSwap s t →
      hval s ≤ hval t + 1) :
    ∀ {k : Nat} {a b : Config}, MovePath a b k → ValidConfig n a →
      hval a ≤ k + hval b := by
  intro k a b hp
  induction hp with
  | refl s => intro _; omega
  | step h1 h2 ih =>
    intro hv
    have h3 := hcons _ _ hv h1
    have h4 := ih (adjacentSwap_valid hv h1)
    omega

/-- Reachability has a least path length. -/
theorem exists_dOptRel {initial_state s : Config} {k : Nat}
    (hp : MovePath initial_state s k) : ∃ g, dOptRel initial_state s g := by
  classical
  refine ⟨Nat.find ⟨k, hp⟩, Nat.find_spec ⟨k, hp⟩, ?_⟩
  intro j hj
  exact Nat.find_min' _ hj

/-! ## Multiset exactness of the embedded `heapq` -/

/-- Writing an entry's own value back changes nothing. -/
theorem set_lget_self {α : Type _} [Inhabited α] (l : List α) (i : Nat)
    (h : i < l.length) : l.set i (lget l i) = l := by
  apply List.ext_getElem (by simp)
  intro j h1 h2
  by_cases hij : i = j
  · subst hij
    simp only [List.getElem_set_self]
    unfold lget
    exact List.getD_eq_getElem _ _ h
  · rw [List.getElem_set_ne hij _]

/-- Exchanging the fronted element with a written entry is a permutation. -/
theorem perm_cons_set {α : Type _} :
    ∀ (xs : List α) (k : Nat) (u v : α), k < xs.length →
      (u :: xs.set k v).Perm (v :: xs.set k u) := by
  intro xs
  induction xs with
  | nil =>
    intro k u v hk
    simp at hk
  | cons y ys ih =>
    intro k u v hk
    cases k with
    | zero =>
      simp only [List.set_cons_zero]
      exact List.Perm.swap v u ys
    | succ k =>
      simp only [List.set_cons_succ]
      exact List.Perm.trans (List.Perm.swap y u _)
        (List.Perm.trans (List.Perm.cons y (ih k u v (by simpa using hk)))
          (List.Perm.swap v y _))

/-- Writing two values at two positions in either assignment order gives
permutation-equal lists. -/
theorem perm_set_exchange {α : Type _} :
    ∀ (l : List α) (i j : Nat) (u v : α), i < j → j < l.length →
      ((l.set i u).set j v).Perm ((l.set i v).set j u) := by
  intro l
  induction l with
  | nil =>
    intro i j u v _ hj
    simp at hj
  | cons x xs ih =>
    intro i j u v hij hj
    cases i with
    | zero =>
      cases j with
      | zero => omega
      | succ j =>
        simp only [List.set_cons_zero, List.set_cons_succ]
        exact perm_cons_set xs j u v (by simpa using hj)
    | succ i =>
      cases j with
      | zero => omega
      | succ j =>
        simp only [List.set_cons_succ]
        exact List.Perm.cons x (ih i j u v (by omega) (by simpa using hj))

/-- The bubble-up phase permutes the array into the array with the new item
written at the hole. -/
theorem siftdownAux_perm {α : Type _} [Inhabited α] {lt : α → α → Bool}
    (newitem : α) :
    ∀ (fuel : Nat) (l : List α) (pos : Nat), pos ≤ fuel → pos < l.length →
      (siftdownAux lt newitem fuel l pos).Perm (l.set pos newitem) := by
  intro fuel
  induction fuel with
  | zero =>
    intro l pos _ _
    exact List.Perm.refl _
  | succ fuel ih =>
    intro l pos hf hpos
    by_cases hp : 0 < pos
    · by_cases hlt : lt newitem (lget l ((pos - 1) / 2)) = true
      · rw [show siftdownAux lt newitem (fuel + 1) l pos
            = siftdownAux lt newitem fuel
                (l.set pos (lget l ((pos - 1) / 2))) ((pos - 1) / 2) by
          simp [siftdownAux, hp, hlt]]
        have h1 := ih (l.set pos (lget l ((pos - 1) / 2))) ((pos - 1) / 2)
          (by omega) (by rw [List.length_set]; omega)
        apply h1.trans
        rw [List.set_comm _ _ _ (by omega : pos ≠ (pos - 1) / 2)]
        have h2 := perm_set_exchange l ((pos - 1) / 2) pos newitem
          (lget l ((pos - 1) / 2)) (by omega) hpos
        apply h2.trans
        rw [set_lget_self l ((pos - 1) / 2) (by omega)]
      · rw [show siftdownAux lt newitem (fuel + 1) l pos = l.set pos newitem by
          simp [siftdownAux, hp, hlt]]
    · rw [show siftdownAux lt newitem (fuel + 1) l pos = l.set pos newitem by
        simp [siftdownAux, hp]]

/-- The descend-then-bubble phase permutes the array into the array with the
new item written at the hole. -/
theorem siftupAux_perm {α : Type _} [Inhabited α] {lt : α → α → Bool}
    (newitem : α) (endpos : Nat) :
    ∀ (fuel : Nat) (l : List α) (pos : Nat), endpos = l.length →
      endpos - pos ≤ fuel → pos < l.length →
      (siftupAux lt endpos newitem fuel l pos).Perm (l.set pos newitem) := by
  intro fuel
  induction fuel with
  | zero =>
    intro l pos hend hf hpos
    exact absurd hpos (by omega)
  | succ fuel ih =>
    intro l pos hend hf hpos
    by_cases hguard : 2 * pos + 1 < endpos
    · rw [show siftupAux lt endpos newitem (fuel + 1) l pos
          = siftupAux lt endpos newitem fuel
              (l.set pos (lget l (siftupChild lt endpos l pos)))
              (siftupChild lt endpos l pos) by simp [siftupAux, hguard]]
      have hcp : siftupChild lt endpos l pos < l.length := by
        have := siftupChild_lt_endpos lt endpos l pos hguard
        omega
      have hcppos : pos < siftupChild lt endpos l pos := by
        unfold siftupChild
        by_cases hs : 2 * pos + 1 + 1 < endpos ∧
            ¬ lt (lget l (2 * pos + 1)) (lget l (2 * pos + 1 + 1)) = true
        · rw [if_pos hs]
          omega
        · rw [if_neg hs]
          omega
      have h1 := ih (l.set pos (lget l (siftupChild lt endpos l pos)))
        (siftupChild lt endpos l pos) (by rw [List.length_set]; exact hend)
        (by omega) (by rw [List.length_set]; omega)
      apply h1.trans
      have h2 := perm_set_exchange l pos (siftupChild lt endpos l pos)
        (lget l (siftupChild lt endpos l pos)) newitem hcppos hcp
      apply h2.trans
      rw [show lget l (siftupChild lt endpos l pos)
          = lget (l.set pos newitem) (siftupChild lt endpos l pos) from
        (lget_set_ne l pos (siftupChild lt endpos l pos) newitem
          (by omega)).symm]
      rw [set_lget_self (l.set pos newitem) (siftupChild lt endpos l pos)
        (by rw [List.length_set]; exact hcp)]
    · rw [show siftupAux lt endpos newitem (fuel + 1) l pos
          = pysiftdown lt (l.set pos newitem) pos by simp [siftupAux, hguard]]
      unfold pysiftdown
      rw [lget_set_eq l pos _ hpos]
      have h1 := @siftdownAux_perm α _ lt newitem pos (l.set pos newitem)
        pos (Nat.le_refl _) (by rw [List.length_set]; exact hpos)
      apply h1.trans
      rw [List.set_set]

/-- `heappush` holds exactly the old heap plus the new item. -/
theorem heappush_perm {α : Type _} [Inhabited α] (lt : α → α → Bool)
    (heap : List α) (item : α) :
    (heappush lt heap item).Perm (item :: heap) := by
  unfold heappush pysiftdown
  rw [lget_append_right_self]
  have h1 := @siftdownAux_perm α _ lt item heap.length (heap ++ [item])
    heap.length (Nat.le_refl _) (by simp)
  apply h1.trans
  rw [show (heap ++ [item]).set heap.length item
      = (heap ++ [item]).set heap.length (lget (heap ++ [item]) heap.length) by
    rw [lget_append_right_self]]
  rw [set_lget_self _ _ (by simp)]
  exact List.perm_append_singleton item heap

/-- `heappop` splits the heap exactly into the popped item and the rest. -/
theorem heappop_perm {α : Type _} [Inhabited α] (lt : α → α → Bool)
    {heap : List α} {x : α} {r : List α}
    (hpop : heappop lt heap = some (x, r)) : heap.Perm (x :: r) := by
  cases heap with
  | nil => simp [heappop] at hpop
  | cons a t =>
    simp only [heappop] at hpop
    by_cases hemp : (a :: t).dropLast.isEmpty = true
    · rw [if_pos hemp] at hpop
      have ht : t = [] := by
        have := List.isEmpty_iff.mp hemp
        have hlen := congrArg List.length this
        simp at hlen
        exact hlen
      subst ht
      have h2 := Option.some.inj hpop
      have hx := congrArg Prod.fst h2
      have hr := congrArg Prod.snd h2
      simp only at hx hr
      rw [← hx, ← hr]
      show [a].Perm [lget [a] 0]
      exact List.Perm.refl _
    · rw [if_neg hemp] at hpop
      have h2 := Option.some.inj hpop
      have hx := congrArg Prod.fst h2
      have hr := congrArg Prod.snd h2
      simp only at hx hr
      have hrl : 0 < (a :: t).dropLast.length := by
        rcases List.isEmpty_eq_false_iff_exists_mem.mp (by simpa using hemp)
          with ⟨z, hz⟩
        exact List.length_pos.mpr (fun h => by simp [h] at hz)
      have hperm : r.Perm ((a :: t).dropLast.set 0
          (lget (a :: t) ((a :: t).length - 1))) := by
        rw [← hr]
        unfold pysiftup
        have h3 := @siftupAux_perm α _ lt
          (lget ((a :: t).dropLast.set 0 (lget (a :: t) ((a :: t).length - 1))) 0)
          ((a :: t).dropLast.set 0 (lget (a :: t) ((a :: t).length - 1))).length
          ((a :: t).dropLast.set 0 (lget (a :: t) ((a :: t).length - 1))).length
          ((a :: t).dropLast.set 0 (lget (a :: t) ((a :: t).length - 1))) 0
          rfl (by omega) (by rw [List.length_set]; exact hrl)
        apply h3.trans
        rw [set_lget_self _ _ (by rw [List.length_set]; exact hrl)]
      have hxa : x = a := by
        rw [← hx, lget_dropLast (a :: t) 0 hrl]
        rfl
      have hlast : lget (a :: t) ((a :: t).length - 1)
          = (a :: t).getLast (by simp) := by
        rw [List.getLast_eq_getElem]
        unfold lget
        rw [List.getD_eq_getElem _ _ (by simp)]
      have hsplit : a :: t
          = (a :: t).dropLast ++ [lget (a :: t) ((a :: t).length - 1)] := by
        rw [hlast]
        exact (List.dropLast_append_getLast (by simp)).symm
      cases hd : (a :: t).dropLast with
      | nil => rw [hd] at hrl; simp at hrl
      | cons r0 rtail =>
        rw [hd, List.cons_append] at hsplit
        injection hsplit with ha ht
        have hset : (a :: t).dropLast.set 0
              (lget (a :: t) ((a :: t).length - 1))
            = lget (a :: t) ((a :: t).length - 1) :: rtail := by
          rw [hd]
          rfl
        rw [hxa]
        conv_lhs => rw [ht]
        apply List.Perm.cons a
        apply (List.perm_append_singleton _ _).trans
        rw [← hset]
        exact hperm.symm

/-- Membership transfers into a push. -/
theorem mem_heappush {α : Type _} [Inhabited α] (lt : α → α → Bool)
    {heap : List α} {y : α} (item : α) (hy : y ∈ heap) :
    y ∈ heappush lt heap item :=
  ((heappush_perm lt heap item).mem_iff).mpr (List.mem_cons_of_mem _ hy)

/-- The pushed item is in the push. -/
theorem self_mem_heappush {α : Type _} [Inhabited α] (lt : α → α → Bool)
    (heap : List α) (item : α) : item ∈ heappush lt heap item :=
  ((heappush_perm lt heap item).mem_iff).mpr (List.mem_cons_self _ _)

/-- Accumulator members survive the conditional-push fold. -/
theorem foldl_cond_push_mem_acc (ex : List Config) :
    ∀ (l : List PuzzleNode) (acc : List PuzzleNode) (y : PuzzleNode),
      y ∈ acc →
      y ∈ l.foldl (fun f c =>
        if state_to_tuple c.state ∈ ex then f else heappush nodeLT f c) acc := by
  intro l
  induction l with
  | nil => intro acc y hy; exact hy
  | cons c cs ih =>
    intro acc y hy
    rw [List.foldl_cons]
    by_cases hm : state_to_tuple c.state ∈ ex
    · rw [if_pos hm]
      exact ih acc y hy
    · rw [if_neg hm]
      exact ih _ y (mem_heappush nodeLT c hy)

/-- A successor whose configuration is not filtered out lands in the fold. -/
theorem foldl_cond_push_mem_pushed (ex : List Config) :
    ∀ (l : List PuzzleNode) (acc : List PuzzleNode) (c : PuzzleNode),
      c ∈ l → state_to_tuple c.state ∉ ex →
      c ∈ l.foldl (fun f c =>
        if state_to_tuple c.state ∈ ex then f else heappush nodeLT f c) acc := by
  intro l
  induction l with
  | nil => intro acc c hc; simp at hc
  | cons d ds ih =>
    intro acc c hc hnx
    rw [List.foldl_cons]
    rcases List.mem_cons.mp hc with h | h
    · subst h
      rw [if_neg hnx]
      exact foldl_cond_push_mem_acc ex ds _ c
        (self_mem_heappush nodeLT acc c)
    · by_cases hm : state_to_tuple d.state ∈ ex
      · rw [if_pos hm]
        exact ih acc c h hnx
      · rw [if_neg hm]
        exact ih _ c h hnx

/-- A pop shortens the frontier by exactly one. -/
theorem heappop_length {α : Type _} [Inhabited α] (lt : α → α → Bool)
    {heap : List α} {x : α} {r : List α}
    (hpop : heappop lt heap = some (x, r)) :
    heap.length = r.length + 1 := by
  have := (heappop_perm lt hpop).length_eq
  simpa using this

/-- The conditional-push fold grows the frontier by at most the pushed list's
length. -/
theorem foldl_cond_push_length (ex : List Config) :
    ∀ (l : List PuzzleNode) (acc : List PuzzleNode),
      (l.foldl (fun f c =>
        if state_to_tuple c.state ∈ ex then f
        else heappush nodeLT f c) acc).length ≤ acc.length + l.length := by
  intro l
  induction l with
  | nil => intro acc; simp
  | cons c cs ih =>
    intro acc
    rw [List.foldl_cons]
    by_cases hm : state_to_tuple c.state ∈ ex
    · rw [if_pos hm]
      have := ih acc
      simp only [List.length_cons]
      omega
    · rw [if_neg hm]
      have h1 := ih (heappush nodeLT acc c)
      have h2 := (heappush_perm nodeLT acc c).length_eq
      simp only [List.length_cons] at h2 ⊢
      omega

/-! ## Consistency of the three heuristics -/

/-- The misplaced-tile heuristic as a double sum of per-cell indicators. -/
theorem misplaced_eq_sum (state goal_state : Config) :
    misplaced_tile_heuristic state goal_state
      = ∑ r ∈ Finset.range state.length, ∑ c ∈ Finset.range state.length,
          (if idx state r c ≠ 0 ∧ idx state r c ≠ idx goal_state r c
           then 1 else 0) := by
  unfold misplaced_tile_heuristic
  have hbody : ∀ (r a c : Nat),
      (if idx state r c ≠ 0 ∧ idx state r c ≠ idx goal_state r c
       then a + 1 else a)
      = a + (if idx state r c ≠ 0 ∧ idx state r c ≠ idx goal_state r c
          then 1 else 0) := by
    intro r a c
    by_cases h0 : idx state r c ≠ 0 ∧ idx state r c ≠ idx goal_state r c
    · rw [if_pos h0, if_pos h0]
    · rw [if_neg h0, if_neg h0]
      omega
  have hinner : ∀ (r acc : Nat),
      (List.range state.length).foldl (fun acc c =>
        if idx state r c ≠ 0 ∧ idx state r c ≠ idx goal_state r c
        then acc + 1 else acc) acc
      = acc + ∑ c ∈ Finset.range state.length,
          (if idx state r c ≠ 0 ∧ idx state r c ≠ idx goal_state r c
           then 1 else 0) := by
    intro r acc
    rw [List.foldl_ext _ (fun acc c => acc +
        (if idx state r c ≠ 0 ∧ idx state r c ≠ idx goal_state r c
         then 1 else 0)) acc ?_]
    · rw [foldl_add_map, list_range_map_sum]
    · intro a c _
      exact hbody r a c
  rw [List.foldl_ext _ (fun acc r => acc +
      ∑ c ∈ Finset.range state.length,
        (if idx state r c ≠ 0 ∧ idx state r c ≠ idx goal_state r c
         then 1 else 0)) 0 ?_]
  · rw [foldl_add_map, list_range_map_sum]
    simp
  · intro a r _
    show (List.range state.length).foldl _ a = _
    exact hinner r a

/-- Two double sums over a grid that agree except at two distinct cells are
related by exchanging those two cells' contributions. -/
theorem sum_grid_two (n : Nat) (F G : Nat → Nat → Nat) (p1r p1c p2r p2c : Nat)
    (h1r : p1r < n) (h1c : p1c < n) (h2r : p2r < n) (h2c : p2c < n)
    (hne : p1r ≠ p2r ∨ p1c ≠ p2c)
    (hFG : ∀ r c, r < n → c < n → (r ≠ p1r ∨ c ≠ p1c) →
      (r ≠ p2r ∨ c ≠ p2c) → F r c = G r c) :
    (∑ r ∈ Finset.range n, ∑ c ∈ Finset.range n, F r c)
        + (G p1r p1c + G p2r p2c)
      = (∑ r ∈ Finset.range n, ∑ c ∈ Finset.range n, G r c)
        + (F p1r p1c + F p2r p2c) := by
  have hconv : ∀ (H : Nat → Nat → Nat),
      ∑ r ∈ Finset.range n, ∑ c ∈ Finset.range n, H r c
        = ∑ p ∈ Finset.range n ×ˢ Finset.range n, H p.1 p.2 := by
    intro H
    rw [Finset.sum_product]
  rw [hconv F, hconv G]
  have hp1 : (p1r, p1c) ∈ Finset.range n ×ˢ Finset.range n := by
    rw [Finset.mem_product]
    exact ⟨Finset.mem_range.mpr h1r, Finset.mem_range.mpr h1c⟩
  have hp2 : (p2r, p2c) ∈ Finset.range n ×ˢ Finset.range n := by
    rw [Finset.mem_product]
    exact ⟨Finset.mem_range.mpr h2r, Finset.mem_range.mpr h2c⟩
  have hpne : (p1r, p1c) ≠ (p2r, p2c) := by
    intro hcontra
    have h1 := congrArg Prod.fst hcontra
    have h2 := congrArg Prod.snd hcontra
    simp only at h1 h2
    rcases hne with h | h
    · exact h h1
    · exact h h2
  have hp2' : (p2r, p2c) ∈ (Finset.range n ×ˢ Finset.range n).erase (p1r, p1c)
      := Finset.mem_erase.mpr ⟨Ne.symm hpne, hp2⟩
  have hsplit : ∀ (H : Nat → Nat → Nat),
      ∑ p ∈ Finset.range n ×ˢ Finset.range n, H p.1 p.2
        = (∑ p ∈ ((Finset.range n ×ˢ Finset.range n).erase
            (p1r, p1c)).erase (p2r, p2c), H p.1 p.2)
          + H p2r p2c + H p1r p1c := by
    intro H
    rw [← Finset.sum_erase_add _ _ hp1, ← Finset.sum_erase_add _ _ hp2']
  rw [hsplit F, hsplit G]
  have hcong : ∑ p ∈ ((Finset.range n ×ˢ Finset.range n).erase
        (p1r, p1c)).erase (p2r, p2c), F p.1 p.2
      = ∑ p ∈ ((Finset.range n ×ˢ Finset.range n).erase
        (p1r, p1c)).erase (p2r, p2c), G p.1 p.2 := by
    apply Finset.sum_congr rfl
    intro p hp
    rcases Finset.mem_erase.mp hp with ⟨hne2, hp'⟩
    rcases Finset.mem_erase.mp hp' with ⟨hne1, hpS⟩
    rcases Finset.mem_product.mp hpS with ⟨hpr, hpc⟩
    apply hFG p.1 p.2 (Finset.mem_range.mp hpr) (Finset.mem_range.mp hpc)
    · by_cases h : p.1 = p1r
      · right
        intro hc
        exact hne1 (Prod.ext h hc)
      · left
        exact h
    · by_cases h : p.1 = p2r
      · right
        intro hc
        exact hne2 (Prod.ext h hc)
      · left
        exact h
  omega

/-- An adjacent blank swap, in coordinates: the blank cell, the in-bounds
destination cell one step away, and the swapped grid. -/
theorem adjacentSwap_cells {s t : Config} (hs : AdjacentSwap s t) :
    ∃ br bc nr nc, br < s.length ∧ bc < s.length ∧ nr < s.length ∧
      nc < s.length ∧
      ((nr = br + 1 ∧ nc = bc) ∨ (br = nr + 1 ∧ nc = bc) ∨
        (nc = bc + 1 ∧ nr = br) ∨ (bc = nc + 1 ∧ nr = br)) ∧
      idx s br bc = 0 ∧ t = swapCells s br bc nr nc := by
  unfold AdjacentSwap isAdjacentSwap at hs
  cases hblank : find_blank s with
  | none => rw [hblank] at hs; simp at hs
  | some rc =>
    obtain ⟨br, bc⟩ := rc
    rw [hblank] at hs
    rcases List.any_eq_true.mp hs with ⟨m, hmm, hcond⟩
    simp only [decide_eq_true_eq] at hcond
    obtain ⟨hmb, hteq⟩ := hcond
    rcases find_blank_bounds hblank with ⟨hbr, hbc, hzero⟩
    unfold inBoundsMove at hmb
    simp only [decide_eq_true_eq] at hmb
    obtain ⟨hb1, hb2, hb3, hb4⟩ := by exact hmb
    refine ⟨br, bc, ((br : Int) + m.1).toNat, ((bc : Int) + m.2.1).toNat,
      hbr, hbc, ?_, ?_, ?_, hzero, hteq⟩
    · omega
    · omega
    · have hmoves : m = ((-1 : Int), (0 : Int), "Up") ∨
          m = ((1 : Int), (0 : Int), "Down") ∨
          m = ((0 : Int), (-1 : Int), "Left") ∨
          m = ((0 : Int), (1 : Int), "Right") := by
        simpa [moves] using hmm
      rcases hmoves with hm | hm | hm | hm <;> subst hm <;>
        simp only [] at hb1 hb2 hb3 hb4 ⊢ <;> omega

/-- Reading a swapped grid: the destination takes the blank, the blank cell
takes the moved tile, and all other cells are untouched. -/
theorem swapCells_idx (n : Nat) (s : Config) (br bc nr nc : Nat)
    (hv : ValidConfig n s) (hbr : br < n) (hbc : bc < n) (hnr : nr < n)
    (hnc : nc < n) (hne : br ≠ nr ∨ bc ≠ nc) :
    idx (swapCells s br bc nr nc) nr nc = idx s br bc ∧
      idx (swapCells s br bc nr nc) br bc = idx s nr nc ∧
      ∀ r c, (r ≠ br ∨ c ≠ bc) → (r ≠ nr ∨ c ≠ nc) →
        idx (swapCells s br bc nr nc) r c = idx s r c := by
  obtain ⟨hlen, hrows, _⟩ := hv
  have hrowb : (s.getD br []).length = n := by
    rw [List.getD_eq_getElem _ _ (by omega)]
    exact hrows _ (List.getElem_mem (by omega))
  have hrown : (s.getD nr []).length = n := by
    rw [List.getD_eq_getElem _ _ (by omega)]
    exact hrows _ (List.getElem_mem (by omega))
  have hinlen : (setc s br bc (idx s nr nc)).length = s.length := by
    unfold setc
    rw [List.length_set]
  have hinrow : ((setc s br bc (idx s nr nc)).getD nr []).length = n := by
    rw [setc_row_length]
    exact hrown
  refine ⟨?_, ?_, ?_⟩
  · show idx (setc (setc s br bc (idx s nr nc)) nr nc (idx s br bc)) nr nc = _
    rw [idx_setc_eq _ _ _ _ (by omega) (by omega)]
  · show idx (setc (setc s br bc (idx s nr nc)) nr nc (idx s br bc)) br bc = _
    rw [idx_setc_ne _ nr nc _ br bc (by omega)]
    rw [idx_setc_eq _ _ _ _ (by omega) (by omega)]
  · intro r c hc1 hc2
    show idx (setc (setc s br bc (idx s nr nc)) nr nc (idx s br bc)) r c = _
    rw [idx_setc_ne _ nr nc _ r c (by omega)]
    rw [idx_setc_ne _ br bc _ r c (by omega)]

/-- The misplaced-tile count changes by at most one per move. -/
theorem misplaced_consistent (n : Nat) (s t goal_state : Config)
    (hv : ValidConfig n s) (hsw : AdjacentSwap s t) :
    misplaced_tile_heuristic s goal_state
      ≤ misplaced_tile_heuristic t goal_state + 1 := by
  have hvt := adjacentSwap_valid hv hsw
  rcases adjacentSwap_cells hsw with
    ⟨br, bc, nr, nc, hbr, hbc, hnr, hnc, hadj, hzero, hteq⟩
  have hlen_s : s.length = n := hv.1
  have hlen_t : t.length = n := hvt.1
  rw [hlen_s] at hbr hbc hnr hnc
  have hne : br ≠ nr ∨ bc ≠ nc := by omega
  have hid := swapCells_idx n s br bc nr nc hv hbr hbc hnr hnc hne
  rw [← hteq] at hid
  obtain ⟨hid1, hid2, hid3⟩ := hid
  rw [misplaced_eq_sum s goal_state, misplaced_eq_sum t goal_state,
    hlen_s, hlen_t]
  have key := sum_grid_two n
    (fun r c => if idx s r c ≠ 0 ∧ idx s r c ≠ idx goal_state r c
      then 1 else 0)
    (fun r c => if idx t r c ≠ 0 ∧ idx t r c ≠ idx goal_state r c
      then 1 else 0)
    br bc nr nc hbr hbc hnr hnc hne ?_
  · have hF1 : (if idx s br bc ≠ 0 ∧ idx s br bc ≠ idx goal_state br bc
        then 1 else 0) = 0 := by
      simp [hzero]
    have hG2 : (if idx t nr nc ≠ 0 ∧ idx t nr nc ≠ idx goal_state nr nc
        then 1 else 0) = 0 := by
      rw [hid1, hzero]
      simp
    have hF2 : (if idx s nr nc ≠ 0 ∧ idx s nr nc ≠ idx goal_state nr nc
        then 1 else 0) ≤ 1 := by
      split
      · omega
      · omega
    have hG1 : (if idx t br bc ≠ 0 ∧ idx t br bc ≠ idx goal_state br bc
        then 1 else 0) ≤ 1 := by
      split
      · omega
      · omega
    simp only at key
    omega
  · intro r c _ _ hc1 hc2
    simp only
    rw [hid3 r c hc1 hc2]

/-- The Manhattan-distance sum (for any fixed dictionary) changes by at most
one per move. -/
theorem manhattan_consistent (n : Nat) (gp : GoalPos)
    (s t goal_state : Config) (hv : ValidConfig n s)
    (hgl : goal_state.length = n) (hsw : AdjacentSwap s t) :
    manhattan_distance_heuristic gp s goal_state
      ≤ manhattan_distance_heuristic gp t goal_state + 1 := by
  have hvt := adjacentSwap_valid hv hsw
  rcases adjacentSwap_cells hsw with
    ⟨br, bc, nr, nc, hbr, hbc, hnr, hnc, hadj, hzero, hteq⟩
  have hlen_s : s.length = n := hv.1
  rw [hlen_s] at hbr hbc hnr hnc
  have hne : br ≠ nr ∨ bc ≠ nc := by omega
  have hid := swapCells_idx n s br bc nr nc hv hbr hbc hnr hnc hne
  rw [← hteq] at hid
  obtain ⟨hid1, hid2, hid3⟩ := hid
  rw [manhattan_eq_sum gp s goal_state, manhattan_eq_sum gp t goal_state, hgl]
  have key := sum_grid_two n
    (fun r c => if idx s r c ≠ 0 then
      (match gp (idx s r c) with
       | some (goal_r, goal_c) => natDist r goal_r + natDist c goal_c
       | none => 0) else 0)
    (fun r c => if idx t r c ≠ 0 then
      (match gp (idx t r c) with
       | some (goal_r, goal_c) => natDist r goal_r + natDist c goal_c
       | none => 0) else 0)
    br bc nr nc hbr hbc hnr hnc hne ?_
  · have hF1 : (if idx s br bc ≠ 0 then
        (match gp (idx s br bc) with
         | some (goal_r, goal_c) => natDist br goal_r + natDist bc goal_c
         | none => 0) else 0) = 0 := by
      simp [hzero]
    have hG2 : (if idx t nr nc ≠ 0 then
        (match gp (idx t nr nc) with
         | some (goal_r, goal_c) => natDist nr goal_r + natDist nc goal_c
         | none => 0) else 0) = 0 := by
      rw [hid1, hzero]
      simp
    have hstep : (if idx s nr nc ≠ 0 then
        (match gp (idx s nr nc) with
         | some (goal_r, goal_c) => natDist nr goal_r + natDist nc goal_c
         | none => 0) else 0)
        ≤ (if idx t br bc ≠ 0 then
        (match gp (idx t br bc) with
         | some (goal_r, goal_c) => natDist br goal_r + natDist bc goal_c
         | none => 0) else 0) + 1 := by
      rw [hid2]
      by_cases hx : idx s nr nc ≠ 0
      · rw [if_pos hx, if_pos hx]
        cases hgp : gp (idx s nr nc) with
        | none =>
          show (0 : Nat) ≤ 0 + 1
          omega
        | some grc =>
          obtain ⟨gr, gc⟩ := grc
          show natDist nr gr + natDist nc gc
            ≤ natDist br gr + natDist bc gc + 1
          unfold natDist
          rcases hadj with ⟨h1, h2⟩ | ⟨h1, h2⟩ | ⟨h1, h2⟩ | ⟨h1, h2⟩ <;>
            omega
      · rw [if_neg hx, if_neg hx]
        omega
    have key' : (∑ r ∈ Finset.range n, ∑ c ∈ Finset.range n,
          (if idx s r c ≠ 0 then
            (match gp (idx s r c) with
             | some (goal_r, goal_c) => natDist r goal_r + natDist c goal_c
             | none => 0) else 0))
        + ((if idx t br bc ≠ 0 then
            (match gp (idx t br bc) with
             | some (goal_r, goal_c) => natDist br goal_r + natDist bc goal_c
             | none => 0) else 0)
          + (if idx t nr nc ≠ 0 then
            (match gp (idx t nr nc) with
             | some (goal_r, goal_c) => natDist nr goal_r + natDist nc goal_c
             | none => 0) else 0))
        = (∑ r ∈ Finset.range n, ∑ c ∈ Finset.range n,
          (if idx t r c ≠ 0 then
            (match gp (idx t r c) with
             | some (goal_r, goal_c) => natDist r goal_r + natDist c goal_c
             | none => 0) else 0))
        + ((if idx s br bc ≠ 0 then
            (match gp (idx s br bc) with
             | some (goal_r, goal_c) => natDist br goal_r + natDist bc goal_c
             | none => 0) else 0)
          + (if idx s nr nc ≠ 0 then
            (match gp (idx s nr nc) with
             | some (goal_r, goal_c) => natDist nr goal_r + natDist nc goal_c
             | none => 0) else 0)) := key
    omega
  · intro r c _ _ hc1 hc2
    simp only
    rw [hid3 r c hc1 hc2]

/-- The misplaced-tile count of the goal itself is zero. -/
theorem misplaced_goal_zero (goal_state : Config) :
    misplaced_tile_heuristic goal_state goal_state = 0 := by
  rw [misplaced_eq_sum]
  apply Finset.sum_eq_zero
  intro r _
  apply Finset.sum_eq_zero
  intro c _
  simp

/-- The Manhattan sum of the goal itself, with the dictionary precomputed
from the goal, is zero. -/
theorem manhattan_goal_zero (n : Nat) (goal_state : Config)
    (hvg : ValidConfig n goal_state) :
    manhattan_distance_heuristic (precompute_goal_pos goal_state) goal_state
      goal_state = 0 := by
  obtain ⟨hlen, hrows, hperm⟩ := hvg
  have hnodup : goal_state.flatten.Nodup :=
    (hperm.nodup_iff).mpr (List.nodup_range _)
  rw [manhattan_eq_sum]
  apply Finset.sum_eq_zero
  intro r hr
  apply Finset.sum_eq_zero
  intro c hc
  by_cases h0 : idx goal_state r c ≠ 0
  · rw [if_pos h0]
    have hrn : r < n := by
      have := Finset.mem_range.mp hr
      omega
    have hcn : c < n := by
      have := Finset.mem_range.mp hc
      omega
    have hpre := precompute_eq_tileGoalPos n goal_state hlen hrows hnodup
      (idx goal_state r c) r c hrn hcn rfl
    rw [hpre]
    rcases tileGoalPos_occurrence goal_state (idx goal_state r c) r c
      (by omega) (by omega) rfl with ⟨ht1, ht2, ht3⟩
    rcases goal_pos_unique n goal_state hlen hrows hnodup
      (tileGoalPos goal_state (idx goal_state r c)).1
      (tileGoalPos goal_state (idx goal_state r c)).2 r c
      (by omega) (by omega) hrn hcn ht3 with ⟨he1, he2⟩
    show natDist r (tileGoalPos goal_state (idx goal_state r c)).1
      + natDist c (tileGoalPos goal_state (idx goal_state r c)).2 = 0
    rw [he1, he2]
    unfold natDist
    omega
  · rw [if_neg h0]

/-- All three selectable heuristics are consistent (never drop by more than
the unit step cost) and vanish on the goal. -/
theorem selectHeuristic_conditions (n : Nat) (h : Heur) (goal_state : Config)
    (hvg : ValidConfig n goal_state) :
    (∀ s t, ValidConfig n s → AdjacentSwap s t →
      selectHeuristic h goal_state s goal_state
        ≤ selectHeuristic h goal_state t goal_state + 1) ∧
      selectHeuristic h goal_state goal_state goal_state = 0 := by
  cases h with
  | zero =>
    exact ⟨fun s t _ _ => by simp [selectHeuristic, no_heuristic], rfl⟩
  | misplaced =>
    exact ⟨fun s t hv hsw => misplaced_consistent n s t goal_state hv hsw,
      misplaced_goal_zero goal_state⟩
  | manhattan =>
    exact ⟨fun s t hv hsw => manhattan_consistent n
        (precompute_goal_pos goal_state) s t goal_state hv hvg.1 hsw,
      manhattan_goal_zero n goal_state hvg⟩

/-! ## Optimality of the search: supporting lemmas -/

/-- Every successor that `expand` builds carries honest bookkeeping: its
configuration is one adjacent blank swap from the parent's, its `g_cost` is
the parent's plus one, its `h_cost` is the heuristic of its own configuration,
and a genuine costed ancestry extends to it. -/
theorem expand_child_props (initial_state : Config) (cur : PuzzleNode)
    (goal_state : Config) (heuristic_func : Config → Config → Nat) :
    ∀ c ∈ expand cur goal_state heuristic_func,
      AdjacentSwap cur.state c.state ∧
        c.g_cost = cur.g_cost + 1 ∧
        c.h_cost = heuristic_func c.state goal_state ∧
        (PathG initial_state cur → PathG initial_state c) := by
  intro c hc
  cases hblank : find_blank cur.state with
  | none =>
    unfold expand at hc
    rw [hblank] at hc
    simp at hc
  | some rc =>
    obtain ⟨br, bc⟩ := rc
    have he : expand cur goal_state heuristic_func
        = (moves.filter (inBoundsMove cur.state br bc)).map
            (childNode cur goal_state heuristic_func br bc) := by
      unfold expand
      rw [hblank]
      simpa using foldl_append_if_eq (inBoundsMove cur.state br bc)
        (childNode cur goal_state heuristic_func br bc) moves []
    rw [he] at hc
    rcases List.mem_map.mp hc with ⟨m, hmf, rfl⟩
    rcases List.mem_filter.mp hmf with ⟨hmm, hmb⟩
    have hadj : AdjacentSwap cur.state
        (childNode cur goal_state heuristic_func br bc m).state := by
      unfold AdjacentSwap isAdjacentSwap
      rw [hblank, List.any_eq_true]
      refine ⟨m, hmm, ?_⟩
      simp only [hmb, decide_eq_true_eq, true_and]
      rfl
    refine ⟨hadj, rfl, rfl, fun hpg => ?_⟩
    show AdjacentSwap cur.state _ ∧ _ = cur.g_cost + 1 ∧
      PathG initial_state cur
    exact ⟨hadj, rfl, hpg⟩

/-- Every configuration one adjacent blank swap away from the expanded node's
is realised by some successor, whose `g_cost` is the parent's plus one. -/
theorem expand_covers_successors (cur : PuzzleNode) (goal_state : Config)
    (heuristic_func : Config → Config → Nat) (t : Config)
    (hadj : AdjacentSwap cur.state t) :
    ∃ c ∈ expand cur goal_state heuristic_func,
      c.state = t ∧ c.g_cost = cur.g_cost + 1 := by
  unfold AdjacentSwap isAdjacentSwap at hadj
  cases hblank : find_blank cur.state with
  | none => rw [hblank] at hadj; simp at hadj
  | some rc =>
    obtain ⟨br, bc⟩ := rc
    rw [hblank] at hadj
    rcases List.any_eq_true.mp hadj with ⟨m, hmm, hcond⟩
    simp only [decide_eq_true_eq] at hcond
    obtain ⟨hmb, hteq⟩ := hcond
    have he : expand cur goal_state heuristic_func
        = (moves.filter (inBoundsMove cur.state br bc)).map
            (childNode cur goal_state heuristic_func br bc) := by
      unfold expand
      rw [hblank]
      simpa using foldl_append_if_eq (inBoundsMove cur.state br bc)
        (childNode cur goal_state heuristic_func br bc) moves []
    refine ⟨childNode cur goal_state heuristic_func br bc m, ?_, ?_, rfl⟩
    · rw [he]
      exact List.mem_map_of_mem _ (List.mem_filter.mpr ⟨hmm, hmb⟩)
    · show swapCells cur.state br bc ((br : Int) + m.1).toNat
        ((bc : Int) + m.2.1).toNat = t
      exact hteq.symm

/-- A node with honestly costed ancestry realises a move path of length
exactly its `g_cost`. -/
theorem pathG_movePath (initial_state : Config) :
    ∀ nd : PuzzleNode, PathG initial_state nd →
      MovePath initial_state nd.state nd.g_cost := by
  intro nd
  induction nd using puzzleNode_parent_induction with
  | h1 s a g h =>
    intro hpg
    obtain ⟨hs, hg⟩ := hpg
    show MovePath initial_state s g
    rw [hs, hg]
    exact MovePath.refl initial_state
  | h2 s p a g h ih =>
    intro hpg
    obtain ⟨hadj, hg, hpp⟩ := hpg
    show MovePath initial_state s g
    rw [hg]
    exact movePath_snoc (ih hpp) hadj

/-- `expand` yields at most four successors (one per move direction). -/
theorem expand_length_le (cur : PuzzleNode) (goal_state : Config)
    (heuristic_func : Config → Config → Nat) :
    (expand cur goal_state heuristic_func).length ≤ 4 := by
  cases hblank : find_blank cur.state with
  | none =>
    unfold expand
    rw [hblank]
    simp
  | some rc =>
    obtain ⟨br, bc⟩ := rc
    have he : expand cur goal_state heuristic_func
        = (moves.filter (inBoundsMove cur.state br bc)).map
            (childNode cur goal_state heuristic_func br bc) := by
      unfold expand
      rw [hblank]
      simpa using foldl_append_if_eq (inBoundsMove cur.state br bc)
        (childNode cur goal_state heuristic_func br bc) moves []
    rw [he, List.length_map]
    exact le_trans (List.length_filter_le _ _) (by simp [moves])

/-- An empty pop means an empty frontier. -/
theorem heappop_eq_none {α : Type _} [Inhabited α] (lt : α → α → Bool)
    {heap : List α} (h : heappop lt heap = none) : heap = [] := by
  cases heap with
  | nil => rfl
  | cons a t =>
    simp only [heappop] at h
    by_cases hemp : (a :: t).dropLast.isEmpty = true
    · rw [if_pos hemp] at h
      exact Option.noConfusion h
    · rw [if_neg hemp] at h
      exact Option.noConfusion h

/-- Full shape of a continuing search step: the popped node fails the goal
test, and the loop either discards it (already explored) or expands it. -/
theorem searchStep_next_cases {goal_state : Config}
    {heuristic_func : Config → Config → Nat} {st st' : LoopState}
    (hstep : searchStep goal_state heuristic_func st = .next st') :
    ∃ cur rest, heappop nodeLT st.frontier = some (cur, rest) ∧
      goal_test cur.state goal_state = false ∧
      ((state_to_tuple cur.state ∈ st.explored ∧
          st' = ⟨rest, st.explored, st.expanded_count,
            max st.max_queue_size st.frontier.length⟩) ∨
        (state_to_tuple cur.state ∉ st.explored ∧
          st' = ⟨(expand cur goal_state heuristic_func).foldl
              (fun f child =>
                if state_to_tuple child.state
                    ∈ state_to_tuple cur.state :: st.explored then f
                else heappush nodeLT f child) rest,
            state_to_tuple cur.state :: st.explored,
            st.expanded_count + 1,
            max st.max_queue_size st.frontier.length⟩)) := by
  unfold searchStep at hstep
  cases hpop : heappop nodeLT st.frontier with
  | none =>
    rw [hpop] at hstep
    simp at hstep
  | some pr =>
    obtain ⟨cur, rest⟩ := pr
    rw [hpop] at hstep
    by_cases hg : goal_test cur.state goal_state = true
    · simp [hg] at hstep
    · have hg' : goal_test cur.state goal_state = false := by simpa using hg
      refine ⟨cur, rest, rfl, hg', ?_⟩
      by_cases hm : state_to_tuple cur.state ∈ st.explored
      · simp only [hg', Bool.false_eq_true, if_false, if_pos hm] at hstep
        injection hstep with h
        exact Or.inl ⟨hm, h.symm⟩
      · simp only [hg', Bool.false_eq_true, if_false, if_neg hm] at hstep
        injection hstep with h
        exact Or.inr ⟨hm, h.symm⟩

/-- A solving step pops exactly its answer node from the frontier. -/
theorem searchStep_solved_pop {goal_state : Config}
    {heuristic_func : Config → Config → Nat} {st : LoopState}
    {node : PuzzleNode} {e m : Nat}
    (hstep : searchStep goal_state heuristic_func st
      = StepResult.solved node e m) :
    ∃ rest, heappop nodeLT st.frontier = some (node, rest) ∧
      node.state = goal_state := by
  unfold searchStep at hstep
  cases hpop : heappop nodeLT st.frontier with
  | none =>
    rw [hpop] at hstep
    simp at hstep
  | some pr =>
    obtain ⟨cur, rest⟩ := pr
    rw [hpop] at hstep
    by_cases hg : goal_test cur.state goal_state = true
    · simp only [hg, if_true, StepResult.solved.injEq] at hstep
      obtain ⟨h1, _, _⟩ := hstep
      subst h1
      refine ⟨rest, rfl, ?_⟩
      unfold goal_test at hg
      simpa using hg
    · have hg' : goal_test cur.state goal_state = false := by simpa using hg
      by_cases hm : state_to_tuple cur.state ∈ st.explored
      · simp only [hg', Bool.false_eq_true, if_false, if_pos hm] at hstep
        exact StepResult.noConfusion hstep
      · simp only [hg', Bool.false_eq_true, if_false, if_neg hm] at hstep
        exact StepResult.noConfusion hstep

/-- Frontier coverage: under the master invariant, every move path to a
not-yet-explored configuration passes through a frontier node whose recorded
cost does not exceed its position on the path. -/
theorem search_path_witness {n : Nat} {initial_state goal_state : Config}
    {heuristic_func : Config → Config → Nat} {st : LoopState}
    (hinv : SearchInv n initial_state goal_state heuristic_func st) :
    ∀ (k : Nat) (s : Config), MovePath initial_state s k →
      s ∉ st.explored →
      ∃ nd ∈ st.frontier, ∃ r, r ≤ k ∧ nd.g_cost ≤ r ∧
        MovePath nd.state s (k - r) := by
  intro k
  induction k with
  | zero =>
    intro s hp hns
    have hs := movePath_zero hp
    rcases hinv.init_covered with hmem | ⟨nd, hndf, hnds, hndg⟩
    · exact absurd (hs ▸ hmem) hns
    · refine ⟨nd, hndf, 0, Nat.le_refl 0, by omega, ?_⟩
      show MovePath nd.state s 0
      rw [hnds, hs]
      exact MovePath.refl s
  | succ k ih =>
    intro s hp hns
    rcases movePath_snoc_inv hp with ⟨w, hw, hws⟩
    by_cases hwe : w ∈ st.explored
    · rcases hinv.closed w hwe with ⟨gs, hgopt, hsucc⟩
      rcases hsucc s hws with hse | ⟨nd, hndf, hnds, hndg⟩
      · exact absurd hse hns
      · have hgs_le : gs ≤ k := hgopt.2 k hw
        refine ⟨nd, hndf, k + 1, Nat.le_refl _, by omega, ?_⟩
        rw [Nat.sub_self, hnds]
        exact MovePath.refl s
    · rcases ih w hw hwe with ⟨nd, hndf, r, hrk, hgr, hpath⟩
      refine ⟨nd, hndf, r, by omega, hgr, ?_⟩
      have hsub : k + 1 - r = (k - r) + 1 := by omega
      rw [hsub]
      exact movePath_snoc hpath hws

/-- The key A* fact, derived from the invariant: with a consistent heuristic,
any node the loop pops whose configuration is not yet explored carries the
true shortest distance to its configuration in `g_cost`. -/
theorem popped_unexplored_optimal {n : Nat}
    {initial_state goal_state : Config}
    {heuristic_func : Config → Config → Nat} {st : LoopState}
    (hinv : SearchInv n initial_state goal_state heuristic_func st)
    (hcons : ∀ s t, ValidConfig n s → AdjacentSwap s t →
      heuristic_func s goal_state ≤ heuristic_func t goal_state + 1)
    {cur : PuzzleNode} {rest : List PuzzleNode}
    (hpop : heappop nodeLT st.frontier = some (cur, rest))
    (hne : cur.state ∉ st.explored) :
    dOptRel initial_state cur.state cur.g_cost := by
  have hcurf : cur ∈ st.frontier := (heappop_mem hpop).1
  obtain ⟨hpg, hh, hv⟩ := hinv.frontier_nodes cur hcurf
  have hcpath : MovePath initial_state cur.state cur.g_cost :=
    pathG_movePath initial_state cur hpg
  rcases exists_dOptRel hcpath with ⟨gopt, hgopt⟩
  rcases search_path_witness hinv gopt cur.state hgopt.1 hne
    with ⟨nd, hndf, r, hrk, hgr, hpath⟩
  obtain ⟨hndpg, hndh, hndv⟩ := hinv.frontier_nodes nd hndf
  have hchain : heuristic_func nd.state goal_state
      ≤ (gopt - r) + heuristic_func cur.state goal_state :=
    hval_chain (fun s => heuristic_func s goal_state)
      (fun s t hvs hadj => hcons s t hvs hadj) hpath hndv
  have hmin : nodeLT nd cur = false :=
    heappop_min nodeLT_asymm nodeLT_negtrans hinv.frontier_heap hpop nd hndf
  have hmin' := (nodeLT_eq_false_iff nd cur).mp hmin
  have e1 : cur.f_cost = cur.g_cost + cur.h_cost := rfl
  have e2 : nd.f_cost = nd.g_cost + nd.h_cost := rfl
  have hgle : cur.g_cost ≤ gopt := by omega
  refine ⟨hcpath, ?_⟩
  intro j hj
  exact le_trans hgle (hgopt.2 j hj)

/-- The master invariant holds when `general_search` enters its loop. -/
theorem searchInv_init (n : Nat) (initial_state goal_state : Config)
    (h : Heur) (hvi : ValidConfig n initial_state) :
    SearchInv n initial_state goal_state (selectHeuristic h goal_state)
      (init_state initial_state goal_state h) := by
  have hfr : (init_state initial_state goal_state h).frontier
      = [start_node initial_state goal_state h] := heapify_singleton _ _
  refine ⟨?_, ?_, ?_, ?_, ?_, ?_, ?_⟩
  · rw [hfr]
    exact isHeap_singleton _ _
  · intro nd hnd
    rw [hfr] at hnd
    have hnd' := List.mem_singleton.mp hnd
    subst hnd'
    exact ⟨⟨rfl, rfl⟩, rfl, hvi⟩
  · exact List.nodup_nil
  · intro s hs
    exact absurd hs (List.not_mem_nil s)
  · exact List.not_mem_nil _
  · refine Or.inr ⟨start_node initial_state goal_state h, ?_, rfl, rfl⟩
    rw [hfr]
    exact List.mem_cons_self _ _
  · intro s hs
    exact absurd hs (List.not_mem_nil s)

/-- The master invariant is preserved by every continuing step of the loop,
provided the heuristic is consistent. -/
theorem searchInv_preserved {n : Nat} {initial_state goal_state : Config}
    {heuristic_func : Config → Config → Nat} {st st' : LoopState}
    (hcons : ∀ s t, ValidConfig n s → AdjacentSwap s t →
      heuristic_func s goal_state ≤ heuristic_func t goal_state + 1)
    (hinv : SearchInv n initial_state goal_state heuristic_func st)
    (hstep : searchStep goal_state heuristic_func st = .next st') :
    SearchInv n initial_state goal_state heuristic_func st' := by
  rcases searchStep_next_cases hstep with ⟨cur, rest, hpop, hgt, hcase⟩
  have hperm := heappop_perm nodeLT hpop
  have hrest_heap := heappop_isHeap nodeLT_asymm nodeLT_negtrans
    hinv.frontier_heap hpop
  have hrest_sub : ∀ y ∈ rest, y ∈ st.frontier := (heappop_mem hpop).2
  have hcur_mem : cur ∈ st.frontier := (heappop_mem hpop).1
  have hcur_ne_goal : cur.state ≠ goal_state := by
    unfold goal_test at hgt
    simpa using hgt
  rcases hcase with ⟨hm, hst'⟩ | ⟨hm, hst'⟩
  · subst hst'
    refine ⟨hrest_heap, ?_, hinv.explored_nodup, hinv.explored_valid,
      hinv.goal_not_explored, ?_, ?_⟩
    · intro nd hnd
      exact hinv.frontier_nodes nd (hrest_sub nd hnd)
    · rcases hinv.init_covered with hmem | ⟨nd, hndf, hnds, hndg⟩
      · exact Or.inl hmem
      · rcases List.mem_cons.mp (hperm.mem_iff.mp hndf) with hc | hc
        · subst hc
          exact Or.inl (hnds ▸ hm)
        · exact Or.inr ⟨nd, hc, hnds, hndg⟩
    · intro s hs
      rcases hinv.closed s hs with ⟨gs, hgopt, hsucc⟩
      refine ⟨gs, hgopt, ?_⟩
      intro t ht
      rcases hsucc t ht with hte | ⟨nd, hndf, hnds, hndg⟩
      · exact Or.inl hte
      · rcases List.mem_cons.mp (hperm.mem_iff.mp hndf) with hc | hc
        · subst hc
          exact Or.inl (hnds ▸ hm)
        · exact Or.inr ⟨nd, hc, hnds, hndg⟩
  · obtain ⟨hcurpg, hcurh, hcurv⟩ := hinv.frontier_nodes cur hcur_mem
    have hopt : dOptRel initial_state cur.state cur.g_cost :=
      popped_unexplored_optimal hinv hcons hpop hm
    subst hst'
    refine ⟨?_, ?_, ?_, ?_, ?_, ?_, ?_⟩
    · exact foldl_cond_push_isHeap _ _ _ hrest_heap
    · intro nd hnd
      rcases foldl_cond_push_mem _ _ _ nd hnd with hc | hc
      · exact hinv.frontier_nodes nd (hrest_sub nd hc)
      · obtain ⟨hadj, hg, hh, hpg⟩ :=
          expand_child_props initial_state cur goal_state heuristic_func nd hc
        exact ⟨hpg hcurpg, hh, adjacentSwap_valid hcurv hadj⟩
    · exact List.nodup_cons.mpr ⟨hm, hinv.explored_nodup⟩
    · intro s hs
      rcases List.mem_cons.mp hs with hc | hc
      · rw [hc]
        exact hcurv
      · exact hinv.explored_valid s hc
    · intro hgoal
      rcases List.mem_cons.mp hgoal with hc | hc
      · exact hcur_ne_goal hc.symm
      · exact hinv.goal_not_explored hc
    · rcases hinv.init_covered with hmem | ⟨nd, hndf, hnds, hndg⟩
      · exact Or.inl (List.mem_cons_of_mem _ hmem)
      · rcases List.mem_cons.mp (hperm.mem_iff.mp hndf) with hc | hc
        · subst hc
          refine Or.inl ?_
          rw [← hnds]
          exact List.mem_cons_self _ _
        · exact Or.inr ⟨nd, foldl_cond_push_mem_acc _ _ _ nd hc, hnds, hndg⟩
    · intro s hs
      rcases List.mem_cons.mp hs with hseq | hsold
      · subst hseq
        refine ⟨cur.g_cost, hopt, ?_⟩
        intro t ht
        by_cases hte : t ∈ state_to_tuple cur.state :: st.explored
        · exact Or.inl hte
        · rcases expand_covers_successors cur goal_state heuristic_func t ht
            with ⟨c, hcmem, hcs, hcg⟩
          refine Or.inr ⟨c, ?_, hcs, le_of_eq hcg⟩
          apply foldl_cond_push_mem_pushed _ _ _ c hcmem
          intro hmem'
          apply hte
          rw [← hcs]
          exact hmem'
      · rcases hinv.closed s hsold with ⟨gs, hgopt, hsucc⟩
        refine ⟨gs, hgopt, ?_⟩
        intro t ht
        rcases hsucc t ht with hte | ⟨nd, hndf, hnds, hndg⟩
        · exact Or.inl (List.mem_cons_of_mem _ hte)
        · rcases List.mem_cons.mp (hperm.mem_iff.mp hndf) with hc | hc
          · subst hc
            refine Or.inl ?_
            rw [← hnds]
            exact List.mem_cons_self _ _
          · exact Or.inr
              ⟨nd, foldl_cond_push_mem_acc _ _ _ nd hc, hnds, hndg⟩

/-- While a path to an unexplored goal exists, the loop cannot report
failure: an empty frontier would contradict frontier coverage. -/
theorem searchStep_not_failed {n : Nat} {initial_state goal_state : Config}
    {heuristic_func : Config → Config → Nat} {st : LoopState} {k : Nat}
    (hinv : SearchInv n initial_state goal_state heuristic_func st)
    (hsolv : MovePath initial_state goal_state k)
    {e m : Nat}
    (hstep : searchStep goal_state heuristic_func st
      = StepResult.failed e m) : False := by
  unfold searchStep at hstep
  cases hpop : heappop nodeLT st.frontier with
  | none =>
    have hemp := heappop_eq_none nodeLT hpop
    rcases search_path_witness hinv k goal_state hsolv
      hinv.goal_not_explored with ⟨nd, hndf, _⟩
    rw [hemp] at hndf
    exact absurd hndf (List.not_mem_nil nd)
  | some pr =>
    obtain ⟨cur, rest⟩ := pr
    rw [hpop] at hstep
    by_cases hg : goal_test cur.state goal_state = true
    · simp [hg] at hstep
    · have hg' : goal_test cur.state goal_state = false := by simpa using hg
      by_cases hm : state_to_tuple cur.state ∈ st.explored
      · simp only [hg', Bool.false_eq_true, if_false, if_pos hm] at hstep
        exact StepResult.noConfusion hstep
      · simp only [hg', Bool.false_eq_true, if_false, if_neg hm] at hstep
        exact StepResult.noConfusion hstep

/-- Two grids with the same number of rows, all rows of width `n`, and equal
flattenings are equal. -/
theorem config_eq_of_flatten_eq (n : Nat) :
    ∀ (s t : Config), s.length = t.length →
      (∀ row ∈ s, row.length = n) → (∀ row ∈ t, row.length = n) →
      s.flatten = t.flatten → s = t := by
  intro s
  induction s with
  | nil =>
    intro t hlen _ _ _
    cases t with
    | nil => rfl
    | cons r t' => simp at hlen
  | cons r s' ih =>
    intro t hlen hrs hrt hflat
    cases t with
    | nil => simp at hlen
    | cons r2 t' =>
      simp only [List.flatten_cons] at hflat
      have hrlen : r.length = r2.length := by
        rw [hrs r (List.mem_cons_self _ _), hrt r2 (List.mem_cons_self _ _)]
      rcases List.append_inj hflat hrlen with ⟨hr, hf⟩
      have hlen' : s'.length = t'.length := by
        simpa using hlen
      have hs' := ih t' hlen' (fun row hrow => hrs row
        (List.mem_cons_of_mem _ hrow)) (fun row hrow => hrt row
        (List.mem_cons_of_mem _ hrow)) hf
      rw [hr, hs']

/-- A duplicate-free list of valid `n × n` configurations is no longer than
the list of permutations of `{0, …, n²−1}`. -/
theorem explored_length_le {n : Nat} (ex : List Config)
    (hnd : ex.Nodup) (hv : ∀ s ∈ ex, ValidConfig n s) :
    ex.length ≤ ((List.range (n * n)).permutations).length := by
  have hmapnd : (ex.map List.flatten).Nodup := by
    refine List.Nodup.map_on ?_ hnd
    intro a ha b hb hab
    obtain ⟨hal, har, _⟩ := hv a ha
    obtain ⟨hbl, hbr, _⟩ := hv b hb
    exact config_eq_of_flatten_eq n a b (by rw [hal, hbl]) har hbr hab
  have hsub : (ex.map List.flatten) ⊆ (List.range (n * n)).permutations := by
    intro fl hfl
    rcases List.mem_map.mp hfl with ⟨s, hsmem, rfl⟩
    exact List.mem_permutations.mpr (hv s hsmem).2.2
  have hle := (hmapnd.subperm hsub).length_le
  simpa using hle

/-- Every continuing step strictly decreases the loop's termination measure:
five times the number of not-yet-explored configurations (bounded through the
permutation count) plus the frontier length. -/
theorem searchStep_measure {n : Nat} {initial_state goal_state : Config}
    {heuristic_func : Config → Config → Nat} {st st' : LoopState}
    (hinv : SearchInv n initial_state goal_state heuristic_func st)
    (hstep : searchStep goal_state heuristic_func st = .next st') :
    5 * (((List.range (n * n)).permutations).length + 1
        - st'.explored.length) + st'.frontier.length
      < 5 * (((List.range (n * n)).permutations).length + 1
        - st.explored.length) + st.frontier.length := by
  rcases searchStep_next_cases hstep with ⟨cur, rest, hpop, _, hcase⟩
  have hflen := heappop_length nodeLT hpop
  have hexb : st.explored.length
      ≤ ((List.range (n * n)).permutations).length :=
    explored_length_le st.explored hinv.explored_nodup hinv.explored_valid
  rcases hcase with ⟨hm, hst'⟩ | ⟨hm, hst'⟩
  · have hex' : st'.explored.length = st.explored.length := by rw [hst']
    have hfr' : st'.frontier.length = rest.length := by rw [hst']
    omega
  · have hex' : st'.explored.length = st.explored.length + 1 := by
      simp [hst']
    have hfr' : st'.frontier.length ≤ rest.length + 4 := by
      simp only [hst']
      refine le_trans (foldl_cond_push_length _ _ _) ?_
      have := expand_length_le cur goal_state heuristic_func
      omega
    omega

/-- Main loop lemma: from any loop state satisfying the master invariant,
with enough fuel (one more than the termination measure), the loop solves,
and the answer node's `g_cost` is the true shortest distance to the goal. -/
theorem searchLoop_finds_optimal {n : Nat} {initial_state goal_state : Config}
    {heuristic_func : Config → Config → Nat} {k : Nat}
    (hcons : ∀ s t, ValidConfig n s → AdjacentSwap s t →
      heuristic_func s goal_state ≤ heuristic_func t goal_state + 1)
    (hsolv : MovePath initial_state goal_state k) :
    ∀ (m : Nat) (st : LoopState),
      SearchInv n initial_state goal_state heuristic_func st →
      5 * (((List.range (n * n)).permutations).length + 1
          - st.explored.length) + st.frontier.length ≤ m →
      ∃ node e mq, searchLoop goal_state heuristic_func (m + 1) st
          = SearchOutcome.solved node e mq ∧
        node.state = goal_state ∧
        dOptRel initial_state goal_state node.g_cost := by
  intro m
  induction m using Nat.strong_induction_on with
  | _ m ih =>
    intro st hinv hmeas
    cases hstep : searchStep goal_state heuristic_func st with
    | solved node e mq =>
      rcases searchStep_solved_pop hstep with ⟨rest, hpop, hgs⟩
      have hne : node.state ∉ st.explored := by
        rw [hgs]
        exact hinv.goal_not_explored
      have hopt := popped_unexplored_optimal hinv hcons hpop hne
      rw [hgs] at hopt
      exact ⟨node, e, mq, by rw [searchLoop, hstep], hgs, hopt⟩
    | failed e mq =>
      exact (searchStep_not_failed hinv hsolv hstep).elim
    | next st' =>
      have hinv' := searchInv_preserved hcons hinv hstep
      have hmeas' := searchStep_measure hinv hstep
      obtain ⟨m', rfl⟩ : ∃ m', m = m' + 1 := ⟨m - 1, by omega⟩
      rcases ih m' (by omega) st' hinv' (by omega)
        with ⟨node, e, mq, hrun, hgs, hopt⟩
      refine ⟨node, e, mq, ?_, hgs, hopt⟩
      rw [searchLoop, hstep]
      exact hrun

/-- C1: for each of the three selectable heuristics (zero, misplaced-tile,
Manhattan) and every solvable valid initial configuration, `general_search`
(run with enough fuel for its unbounded Python loop) returns a goal node
whose `g_cost` equals the length of a shortest move sequence from the initial
configuration to the goal configuration. -/
theorem astar_returns_shortest (n : Nat) (initial_state goal_state : Config)
    (h : Heur) (k : Nat)
    (hvi : ValidConfig n initial_state) (hvg : ValidConfig n goal_state)
    (hsolv : MovePath initial_state goal_state k) :
    ∃ fuel node e m,
      general_search fuel initial_state goal_state h
          = SearchOutcome.solved node e m ∧
        node.state = goal_state ∧
        MovePath initial_state goal_state node.g_cost ∧
        ∀ j, MovePath initial_state goal_state j → node.g_cost ≤ j := by
  obtain ⟨hcons, _⟩ := selectHeuristic_conditions n h goal_state hvg
  have hinv := searchInv_init n initial_state goal_state h hvi
  rcases searchLoop_finds_optimal hcons hsolv
      (5 * (((List.range (n * n)).permutations).length + 1
        - (init_state initial_state goal_state h).explored.length)
        + (init_state initial_state goal_state h).frontier.length)
      (init_state initial_state goal_state h) hinv (Nat.le_refl _)
    with ⟨node, e, m, hrun, hgs, hopt⟩
  exact ⟨_, node, e, m, hrun, hgs, hopt.1, hopt.2⟩

theorem astar_returns_shortest_witness :
    ∃ fuel node e m,
      general_search fuel d1c goal3 Heur.manhattan
          = SearchOutcome.solved node e m ∧
        node.state = goal3 ∧
        MovePath d1c goal3 node.g_cost ∧
        ∀ j, MovePath d1c goal3 j → node.g_cost ≤ j :=
  astar_returns_shortest 3 d1c goal3 Heur.manhattan 1 (by decide) (by decide)
    (MovePath.step (show isAdjacentSwap d1c goal3 = true by decide)
      (MovePath.refl goal3))
